import Mathlib

/-!
Verification development for the agent run loop in `src/agents/index.ts`
(`createAgent(...).run(...)`, `maybeExecuteTool`, `mergeTools`,
`withToolCallHints`, `parseToolCall`, `tryParseObject`).

Modelling conventions:
* JavaScript values produced by JSON parsing are modelled by `JValue`.
* `JSON.parse` and `JSON.stringify` are platform builtins, not code of this
  repository; they are taken as parameters (`jp : String → Option JValue`,
  with `none` standing for a thrown parse error, and
  `stringify : JValue → String`).
* Promises / thrown exceptions are modelled with `Except ε`.
* The optional `onTrace` observer is side-effecting and returns `void`; its
  only observable is the stream of events delivered to it, so it is modelled
  by a `Bool` flag (present / absent) plus an explicit list of delivered
  events in the run log.
* Besides the trace, the log records the semantically relevant external
  invocations (provider `chat` calls, tool executions, handoff callback
  invocations) unconditionally, so that claims about invocation counts and
  sequences can be stated.
-/

inductive JValue where
  | null : JValue
  | bool : Bool → JValue
  | num : Rat → JValue
  | str : String → JValue
  | arr : List JValue → JValue
  | obj : List (String × JValue) → JValue

/-- `v === s` for a string `s` (JavaScript strict equality against a string). -/
def jstrEq (v : JValue) (s : String) : Bool :=
  match v with
  | .str t => t == s
  | _ => false

/-- `'k' in v` for a parsed value: true only for objects having the key
(arrays never carry these string keys; `null`/primitives are falsy or not
of object type, so the guards in the source reject them). -/
def hasKey (v : Option JValue) (k : String) : Bool :=
  match v with
  | some (.obj fs) => fs.any (fun p => p.1 == k)
  | _ => false

/-- Property access `v.k` on a parsed value (first binding of the key). -/
def jget (v : Option JValue) (k : String) : Option JValue :=
  match v with
  | some (.obj fs) => (fs.find? (fun p => p.1 == k)).map (fun p => p.2)
  | _ => none

inductive Role where
  | user | assistant | system | tool
deriving DecidableEq

structure Message where
  role : Role
  content : String
  name : Option String := none
deriving DecidableEq

structure ToolContext where
  metadata : Option (List (String × JValue)) := none

structure ToolDefinition (ε : Type) where
  name : String
  description : Option String := none
  execute : JValue → ToolContext → Except ε JValue

structure RunResult where
  content : String
  structured : Option JValue := none

structure StructuredSchema (ε : Type) where
  parse : Option JValue → Except ε JValue

inductive TraceEvent where
  | agentStart (agentName : Option String)
  | agentStop (agentName : Option String)
  | llmRequest (model : String) (messages : List Message)
  | llmResponse (content : String)
  | toolStart (name : String) (args : JValue)
  | toolStop (name : String) (result : JValue)
  | handoff (source : Option String) (dest : JValue) (reason : Option JValue)

structure AgentConfig (ε : Type) where
  name : Option String := none
  instructions : Option String := none
  model : Option String := none
  temperature : Option Rat := none
  tools : Option (List (ToolDefinition ε)) := none
  inputGuard : Option (List Message → Except ε (List Message)) := none
  outputGuard : Option (String → Except ε String) := none
  onTrace : Bool := false
  handoff : Option (JValue → List Message → ToolContext → Except ε RunResult) := none

structure ChatArgs where
  model : String
  messages : List Message
  temperature : Rat

structure OpenAIClient (ε : Type) where
  chat : ChatArgs → Except ε String

structure RunInput (ε : Type) where
  messages : List Message
  expect : Option (StructuredSchema ε) := none
  context : ToolContext := {}
  maxToolPasses : Option Int := none

/-- External invocations performed during a run. -/
inductive CallEvent where
  | chatCall (args : ChatArgs)
  | toolCall (name : String) (args : JValue)
  | handoffCall (dest : JValue) (history : List Message) (context : ToolContext)

structure RunLog where
  calls : List CallEvent
  trace : List TraceEvent

def emitTrace (hasObserver : Bool) (log : RunLog) (e : TraceEvent) : RunLog :=
  if hasObserver then { log with trace := log.trace ++ [e] } else log

def recordCall (log : RunLog) (e : CallEvent) : RunLog :=
  { log with calls := log.calls ++ [e] }

/-- `text.indexOf('{')`-style search (JavaScript returns `-1` when absent). -/
def jsIndexOf (s : String) (c : Char) : Int :=
  match s.toList.indexOf? c with
  | some i => (i : Int)
  | none => -1

/-- `text.lastIndexOf('}')`-style search. -/
def jsLastIndexOf (s : String) (c : Char) : Int :=
  match s.toList.reverse.indexOf? c with
  | some i => ((s.toList.length - 1 - i : Nat) : Int)
  | none => -1

/-- `text.slice(start, stop)` for in-range character indices. -/
def jsSlice (s : String) (start stop : Nat) : String :=
  String.mk ((s.toList.drop start).take (stop - start))

/-- `tryParseObject`: strict parse first; on failure try the substring from
the first `\x7b` to the last `\x7d`; on any further failure, `none`. -/
def tryParseObject (jp : String → Option JValue) (text : String) : Option JValue :=
  match jp text with
  | some v => some v
  | none =>
    let start := jsIndexOf text '{'
    let stop := jsLastIndexOf text '}'
    if start ≠ -1 ∧ stop ≠ -1 ∧ start < stop then
      jp (jsSlice text start.toNat (stop.toNat + 1))
    else none

structure ToolCallDirective where
  tool : JValue
  args : JValue

/-- `parseToolCall`: the parsed value must be an object with both a `tool`
and an `args` key. -/
def parseToolCall (jp : String → Option JValue) (content : String) :
    Option ToolCallDirective :=
  match tryParseObject jp content with
  | some (.obj fs) =>
    if (fs.any (fun p => p.1 == "tool")) && (fs.any (fun p => p.1 == "args")) then
      some ⟨(jget (some (.obj fs)) "tool").getD .null,
            (jget (some (.obj fs)) "args").getD .null⟩
    else none
  | _ => none

/-- `typeof result === 'string' ? result : JSON.stringify(result)`. -/
def stringifyResult (stringify : JValue → String) : JValue → String
  | .str s => s
  | v => stringify v

/-- `maybeExecuteTool`, returning the trace events it would deliver to
`onTrace` together with the resulting string (or the propagated error). -/
def maybeExecuteTool (jp : String → Option JValue) (stringify : JValue → String)
    (content : String) (tools : Option (List (ToolDefinition ε)))
    (context : ToolContext) : List TraceEvent × Except ε String :=
  match tools with
  | none => ([], .ok content)
  | some ts =>
    if ts.isEmpty then ([], .ok content)
    else
      match parseToolCall jp content with
      | none => ([], .ok content)
      | some tc =>
        match ts.find? (fun t => jstrEq tc.tool t.name) with
        | none => ([], .ok content)
        | some found =>
          match found.execute tc.args context with
          | .error e => ([.toolStart found.name tc.args], .error e)
          | .ok result =>
            ([.toolStart found.name tc.args, .toolStop found.name result],
             .ok (stringifyResult stringify result))

/-- The synthetic tool-hint system message content. -/
def toolHintContent (ts : List (ToolDefinition ε)) : String :=
  "You may call tools by responding with JSON \x7b\"tool\":\"NAME\",\"args\":OBJECT\x7d. Tools:\n" ++
    String.intercalate "\n"
      (ts.map (fun t => "- " ++ t.name ++ ": " ++ t.description.getD ""))

/-- `withToolCallHints`: prepend the synthetic tool-hint system message when
tools are configured and non-empty. -/
def withToolCallHints (messages : List Message)
    (tools : Option (List (ToolDefinition ε))) : List Message :=
  match tools with
  | none => messages
  | some ts =>
    if ts.isEmpty then messages
    else ⟨.system, toolHintContent ts, none⟩ :: messages

/-- `Map.set` on an association list: replace in place when the key exists
(preserving position), append otherwise. -/
def mapSet (m : List (String × α)) (k : String) (v : α) : List (String × α) :=
  if m.any (fun p => p.1 == k) then
    m.map (fun p => if p.1 == k then (k, v) else p)
  else m ++ [(k, v)]

/-- `mergeTools`: name-keyed map seeded with `a` then overlaid with `b`. -/
def mergeTools (a b : Option (List (ToolDefinition ε))) :
    Option (List (ToolDefinition ε)) :=
  match a, b with
  | none, none => none
  | _, _ =>
    some ((((a.getD []) ++ (b.getD [])).foldl
      (fun m t => mapSet m t.name t) []).map (fun p => p.2))

/-- The tool executions among a batch of trace events, as call events. -/
def toolCallsOf (evs : List TraceEvent) : List CallEvent :=
  evs.filterMap (fun e =>
    match e with
    | .toolStart n a => some (.toolCall n a)
    | _ => none)

/-- Merge the events produced by `maybeExecuteTool` into the log: tool
executions are always recorded as calls; the events reach the trace only
when the observer is present. -/
def logToolEvents (hasObserver : Bool) (log : RunLog) (evs : List TraceEvent) :
    RunLog :=
  { calls := log.calls ++ toolCallsOf evs,
    trace := log.trace ++ (if hasObserver then evs else []) }

/-- Outcome of one iteration of the `for` loop in `run`. -/
inductive TurnOutcome (ε : Type) where
  | errored (e : ε)
  | handoffDone (r : RunResult)
  | finalized (lastContent : String)
  | continueWith (history : List Message) (lastContent : String)

/-- One iteration of the turn loop in `createAgent(...).run(...)`:
hint injection, the provider call, handoff detection, tool dispatch. -/
def runTurn (jp : String → Option JValue) (stringify : JValue → String)
    (client : OpenAIClient ε) (cfg : AgentConfig ε) (context : ToolContext)
    (history : List Message) (log : RunLog) : RunLog × TurnOutcome ε :=
  let model := cfg.model.getD "gpt-4o-mini"
  let temperature := cfg.temperature.getD (2/10 : Rat)
  let hinted := withToolCallHints history cfg.tools
  let log := emitTrace cfg.onTrace log (.llmRequest model hinted)
  let log := recordCall log (.chatCall ⟨model, hinted, temperature⟩)
  match client.chat ⟨model, hinted, temperature⟩ with
  | .error e => (log, .errored e)
  | .ok lastContent =>
    let log := emitTrace cfg.onTrace log (.llmResponse lastContent)
    let hobj := tryParseObject jp lastContent
    if hasKey hobj "handoff" then
      let dest := (jget hobj "handoff").getD .null
      let log := emitTrace cfg.onTrace log (.handoff cfg.name dest (jget hobj "reason"))
      match cfg.handoff with
      | some hnd =>
        let log := recordCall log (.handoffCall dest history context)
        match hnd dest history context with
        | .error e => (log, .errored e)
        | .ok r =>
          let log := emitTrace cfg.onTrace log (.agentStop cfg.name)
          (log, .handoffDone r)
      | none => (log, .finalized lastContent)
    else
      match maybeExecuteTool jp stringify lastContent cfg.tools context with
      | (evs, .error e) => (logToolEvents cfg.onTrace log evs, .errored e)
      | (evs, .ok toolResult) =>
        let log := logToolEvents cfg.onTrace log evs
        if toolResult ≠ lastContent then
          (log, .continueWith
            (history ++ [⟨.assistant, lastContent, none⟩, ⟨.tool, toolResult, none⟩])
            lastContent)
        else (log, .finalized lastContent)

/-- How the turn loop ended: either fall through to finalization with the
last content, or an immediate handoff return (which bypasses finalization). -/
inductive LoopExit where
  | finalizeWith (lastContent : String)
  | handoffResult (r : RunResult)

/-- The bounded turn loop (`for i < Math.max(1, maxToolPasses + 1)`),
with the remaining iteration count as fuel. -/
def runLoop (jp : String → Option JValue) (stringify : JValue → String)
    (client : OpenAIClient ε) (cfg : AgentConfig ε) (context : ToolContext) :
    Nat → List Message → String → RunLog → RunLog × Except ε LoopExit
  | 0, _, lastContent, log => (log, .ok (.finalizeWith lastContent))
  | fuel + 1, history, _, log =>
    match runTurn jp stringify client cfg context history log with
    | (log, .errored e) => (log, .error e)
    | (log, .handoffDone r) => (log, .ok (.handoffResult r))
    | (log, .finalized c) => (log, .ok (.finalizeWith c))
    | (log, .continueWith history lastContent) =>
      runLoop jp stringify client cfg context fuel history lastContent log

/-- Optional guard application (identity when no guard is configured). -/
def applyGuard (g : Option (α → Except ε α)) (x : α) : Except ε α :=
  match g with
  | some g => g x
  | none => .ok x

/-- History seeding: prepend the instructions system message (if any) to the
guarded input. -/
def seedHistory (cfg : AgentConfig ε) (guardedInput : List Message) : List Message :=
  (match cfg.instructions with
   | some ins => [⟨.system, ins, none⟩]
   | none => []) ++ guardedInput

/-- The log after the `agent:start` trace. -/
def startLog (cfg : AgentConfig ε) : RunLog :=
  emitTrace cfg.onTrace ⟨[], []⟩ (.agentStart cfg.name)

/-- Finalization: output guard, then optional structured-output extraction,
then the `agent:stop` trace. -/
def finalizeRun (jp : String → Option JValue) (cfg : AgentConfig ε)
    (input : RunInput ε) (log : RunLog) (lastContent : String) :
    RunLog × Except ε RunResult :=
  match applyGuard cfg.outputGuard lastContent with
  | .error e => (log, .error e)
  | .ok content =>
    match input.expect with
    | none => (emitTrace cfg.onTrace log (.agentStop cfg.name), .ok ⟨content, none⟩)
    | some sch =>
      match sch.parse (tryParseObject jp content) with
      | .error e => (log, .error e)
      | .ok v => (emitTrace cfg.onTrace log (.agentStop cfg.name), .ok ⟨content, some v⟩)

/-- `createAgent(client, cfg).run(input)`: input guard, history seeding,
the turn loop, then output guard and structured-output extraction. -/
def runAgent (jp : String → Option JValue) (stringify : JValue → String)
    (client : OpenAIClient ε) (cfg : AgentConfig ε) (input : RunInput ε) :
    RunLog × Except ε RunResult :=
  match applyGuard cfg.inputGuard input.messages with
  | .error e => (⟨[], []⟩, .error e)
  | .ok guardedInput =>
    let fuel := (max 1 ((input.maxToolPasses.getD 3) + 1)).toNat
    match runLoop jp stringify client cfg input.context fuel
        (seedHistory cfg guardedInput) "" (startLog cfg) with
    | (log, .error e) => (log, .error e)
    | (log, .ok (.handoffResult r)) => (log, .ok r)
    | (log, .ok (.finalizeWith lastContent)) =>
      finalizeRun jp cfg input log lastContent

/-- Number of provider `chat` invocations recorded in a call list. -/
def countChatCalls (l : List CallEvent) : Nat :=
  l.countP (fun e => match e with | .chatCall _ => true | _ => false)

/-- Number of tool executions recorded in a call list. -/
def countToolCalls (l : List CallEvent) : Nat :=
  l.countP (fun e => match e with | .toolCall _ _ => true | _ => false)

/-- The message list of a provider call event (empty for other events). -/
def chatMessagesOf (e : CallEvent) : List Message :=
  match e with
  | .chatCall a => a.messages
  | _ => []

/-! Concrete fixtures used to instantiate the theorems below.  `jpNone`
matches `JSON.parse` on plain prose (always a parse error); `jpCalc` and
`jpHandoff` match `JSON.parse` on the one literal JSON text each models. -/

def jpNone : String → Option JValue := fun _ => none

def stNull : JValue → String := fun _ => "null"

def calcDirectiveText : String := "\x7b\"tool\":\"calc\",\"args\":\x7b\x7d\x7d"

def calcDirectiveVal : JValue := .obj [("tool", .str "calc"), ("args", .obj [])]

def jpCalc : String → Option JValue := fun s =>
  if s = calcDirectiveText then some calcDirectiveVal else none

def calcTool : ToolDefinition String :=
  { name := "calc", execute := fun _ _ => .ok (.str "4") }

def clientConst (s : String) : OpenAIClient String := { chat := fun _ => .ok s }

def echoTool : ToolDefinition String :=
  { name := "echo", execute := fun a _ => .ok a }

def handoffText : String := "\x7b\"handoff\":\"Spanish\",\"reason\":\"detected\"\x7d"

def handoffVal : JValue :=
  .obj [("handoff", .str "Spanish"), ("reason", .str "detected")]

def jpHandoff : String → Option JValue := fun s =>
  if s = handoffText then some handoffVal else none

/-! Basic facts about the run log bookkeeping. -/

@[simp] theorem emitTrace_calls (b : Bool) (log : RunLog) (e : TraceEvent) :
    (emitTrace b log e).calls = log.calls := by
  cases b <;> simp [emitTrace]

@[simp] theorem recordCall_calls (log : RunLog) (e : CallEvent) :
    (recordCall log e).calls = log.calls ++ [e] := rfl

@[simp] theorem logToolEvents_calls (b : Bool) (log : RunLog) (evs : List TraceEvent) :
    (logToolEvents b log evs).calls = log.calls ++ toolCallsOf evs := rfl

@[simp] theorem countChatCalls_append (l₁ l₂ : List CallEvent) :
    countChatCalls (l₁ ++ l₂) = countChatCalls l₁ + countChatCalls l₂ :=
  List.countP_append _ _ _

@[simp] theorem countToolCalls_append (l₁ l₂ : List CallEvent) :
    countToolCalls (l₁ ++ l₂) = countToolCalls l₁ + countToolCalls l₂ :=
  List.countP_append _ _ _

@[simp] theorem countChatCalls_toolCallsOf (evs : List TraceEvent) :
    countChatCalls (toolCallsOf evs) = 0 := by
  rw [countChatCalls, List.countP_eq_zero]
  intro a ha
  rcases List.mem_filterMap.mp ha with ⟨e, -, he⟩
  cases e <;> simp at he <;> subst he <;> simp

/-- A helper shared by several claims: when no tool-call directive parses out
of the content, the dispatcher is the identity. -/
theorem maybeExecuteTool_parse_none {ε : Type} (jp : String → Option JValue)
    (stringify : JValue → String) (content : String)
    (tools : Option (List (ToolDefinition ε))) (context : ToolContext)
    (hpc : parseToolCall jp content = none) :
    maybeExecuteTool jp stringify content tools context = ([], .ok content) := by
  cases tools with
  | none => rfl
  | some ts => by_cases h : ts.isEmpty <;> simp [maybeExecuteTool, h, hpc]

/-- C8: `maybeExecuteTool` resolves to exactly the input content, unmodified,
whenever the tool list is absent or empty, whenever the content contains no
tool-call directive, or whenever the directive's tool name matches no
configured tool (unknown names are silently ignored, never an error). -/
theorem maybeExecuteTool_identity_cases {ε : Type} (jp : String → Option JValue)
    (stringify : JValue → String) (content : String) (context : ToolContext) :
    (maybeExecuteTool jp stringify content (none : Option (List (ToolDefinition ε)))
        context = ([], .ok content))
    ∧ (maybeExecuteTool jp stringify content (some ([] : List (ToolDefinition ε)))
        context = ([], .ok content))
    ∧ (∀ tools : Option (List (ToolDefinition ε)),
        parseToolCall jp content = none →
        maybeExecuteTool jp stringify content tools context = ([], .ok content))
    ∧ (∀ (ts : List (ToolDefinition ε)) (tc : ToolCallDirective),
        parseToolCall jp content = some tc →
        ts.find? (fun t => jstrEq tc.tool t.name) = none →
        maybeExecuteTool jp stringify content (some ts) context = ([], .ok content)) := by
  refine ⟨rfl, rfl, ?_, ?_⟩
  · intro tools hpc
    exact maybeExecuteTool_parse_none jp stringify content tools context hpc
  · intro ts tc hpc hfind
    by_cases h : ts.isEmpty <;> simp [maybeExecuteTool, h, hpc, hfind]

theorem maybeExecuteTool_identity_cases_witness :
    (maybeExecuteTool jpNone stNull "hello" (some [calcTool]) {} = ([], .ok "hello"))
    ∧ (maybeExecuteTool jpCalc stNull calcDirectiveText (some [echoTool]) {} =
        ([], .ok calcDirectiveText)) :=
  ⟨(maybeExecuteTool_identity_cases jpNone stNull "hello" {}).2.2.1 (some [calcTool]) rfl,
   (maybeExecuteTool_identity_cases jpCalc stNull calcDirectiveText {}).2.2.2
     [echoTool] ⟨.str "calc", .obj []⟩ rfl rfl⟩

/-- The arguments of the provider call a turn makes from a given history. -/
def hintedArgs (cfg : AgentConfig ε) (history : List Message) : ChatArgs :=
  ⟨cfg.model.getD "gpt-4o-mini", withToolCallHints history cfg.tools,
   cfg.temperature.getD (2/10 : Rat)⟩

/-- Log state after the `llm:request` trace and the recorded provider call. -/
def chatReqLog (cfg : AgentConfig ε) (history : List Message) (log : RunLog) : RunLog :=
  recordCall
    (emitTrace cfg.onTrace log
      (.llmRequest (cfg.model.getD "gpt-4o-mini") (withToolCallHints history cfg.tools)))
    (.chatCall (hintedArgs cfg history))

/-- Log state after the provider call returned `c` and `llm:response` fired. -/
def afterChatLog (cfg : AgentConfig ε) (history : List Message) (log : RunLog)
    (c : String) : RunLog :=
  emitTrace cfg.onTrace (chatReqLog cfg history log) (.llmResponse c)

@[simp] theorem chatReqLog_calls (cfg : AgentConfig ε) (history : List Message)
    (log : RunLog) :
    (chatReqLog cfg history log).calls = log.calls ++ [.chatCall (hintedArgs cfg history)] := by
  simp [chatReqLog]

@[simp] theorem afterChatLog_calls (cfg : AgentConfig ε) (history : List Message)
    (log : RunLog) (c : String) :
    (afterChatLog cfg history log c).calls = log.calls ++ [.chatCall (hintedArgs cfg history)] := by
  simp [afterChatLog]

/-- A turn whose response carries no parsable directive finalizes at once. -/
theorem runTurn_no_directive (jp : String → Option JValue) (st : JValue → String)
    (client : OpenAIClient ε) (cfg : AgentConfig ε) (ctx : ToolContext)
    (history : List Message) (log : RunLog) (c : String)
    (hchat : client.chat (hintedArgs cfg history) = .ok c)
    (htp : tryParseObject jp c = none) :
    runTurn jp st client cfg ctx history log = (afterChatLog cfg history log c, .finalized c) := by
  have hpc : parseToolCall jp c = none := by rw [parseToolCall, htp]
  rw [hintedArgs] at hchat
  simp only [runTurn, hchat, htp,
    maybeExecuteTool_parse_none jp st c cfg.tools ctx hpc, hasKey]
  simp [afterChatLog, chatReqLog, hintedArgs, logToolEvents, toolCallsOf,
    emitTrace, recordCall]

/-- The value passed as the handoff target (`handoffObj.handoff`). -/
def handoffDest (jp : String → Option JValue) (c : String) : JValue :=
  (jget (tryParseObject jp c) "handoff").getD .null

/-- A turn whose response parses to a handoff directive, with a configured
handoff callback that succeeds: the callback is invoked with the current
history and context and its result ends the run. -/
theorem runTurn_handoff (jp : String → Option JValue) (st : JValue → String)
    (client : OpenAIClient ε) (cfg : AgentConfig ε) (ctx : ToolContext)
    (history : List Message) (log : RunLog) (c : String)
    (hnd : JValue → List Message → ToolContext → Except ε RunResult) (r : RunResult)
    (hchat : client.chat (hintedArgs cfg history) = .ok c)
    (hhk : hasKey (tryParseObject jp c) "handoff" = true)
    (hand : cfg.handoff = some hnd)
    (hr : hnd (handoffDest jp c) history ctx = .ok r) :
    (runTurn jp st client cfg ctx history log).2 = .handoffDone r
    ∧ (runTurn jp st client cfg ctx history log).1.calls =
        log.calls ++ [.chatCall (hintedArgs cfg history),
                      .handoffCall (handoffDest jp c) history ctx] := by
  rw [hintedArgs] at hchat
  rw [handoffDest] at hr
  simp only [runTurn, hchat, hhk, hand, hr, if_true]
  constructor
  · trivial
  · simp [chatReqLog, hintedArgs, handoffDest]

/-- Handoff directive but no configured callback: the loop breaks and the
turn finalizes with the raw content. -/
theorem runTurn_handoff_noHandler (jp : String → Option JValue) (st : JValue → String)
    (client : OpenAIClient ε) (cfg : AgentConfig ε) (ctx : ToolContext)
    (history : List Message) (log : RunLog) (c : String)
    (hchat : client.chat (hintedArgs cfg history) = .ok c)
    (hhk : hasKey (tryParseObject jp c) "handoff" = true)
    (hand : cfg.handoff = none) :
    (runTurn jp st client cfg ctx history log).2 = .finalized c
    ∧ (runTurn jp st client cfg ctx history log).1.calls =
        log.calls ++ [.chatCall (hintedArgs cfg history)] := by
  rw [hintedArgs] at hchat
  simp only [runTurn, hchat, hhk, hand, if_true]
  constructor
  · trivial
  · simp [chatReqLog, hintedArgs]

/-- Handoff directive whose callback throws: the error propagates. -/
theorem runTurn_handoff_error (jp : String → Option JValue) (st : JValue → String)
    (client : OpenAIClient ε) (cfg : AgentConfig ε) (ctx : ToolContext)
    (history : List Message) (log : RunLog) (c : String)
    (hnd : JValue → List Message → ToolContext → Except ε RunResult) (e : ε)
    (hchat : client.chat (hintedArgs cfg history) = .ok c)
    (hhk : hasKey (tryParseObject jp c) "handoff" = true)
    (hand : cfg.handoff = some hnd)
    (hr : hnd (handoffDest jp c) history ctx = .error e) :
    (runTurn jp st client cfg ctx history log).2 = .errored e
    ∧ (runTurn jp st client cfg ctx history log).1.calls =
        log.calls ++ [.chatCall (hintedArgs cfg history),
                      .handoffCall (handoffDest jp c) history ctx] := by
  rw [hintedArgs] at hchat
  rw [handoffDest] at hr
  simp only [runTurn, hchat, hhk, hand, hr, if_true]
  constructor
  · trivial
  · simp [chatReqLog, hintedArgs, handoffDest]

/-- A turn with no handoff directive: the tool dispatcher decides the
outcome (continue when a tool transformed the content, finalize when the
result equals the input, propagate a tool error). -/
theorem runTurn_tool (jp : String → Option JValue) (st : JValue → String)
    (client : OpenAIClient ε) (cfg : AgentConfig ε) (ctx : ToolContext)
    (history : List Message) (log : RunLog) (c : String)
    (evs : List TraceEvent) (res : Except ε String)
    (hchat : client.chat (hintedArgs cfg history) = .ok c)
    (hhk : hasKey (tryParseObject jp c) "handoff" = false)
    (hmet : maybeExecuteTool jp st c cfg.tools ctx = (evs, res)) :
    (runTurn jp st client cfg ctx history log).1.calls =
      log.calls ++ [.chatCall (hintedArgs cfg history)] ++ toolCallsOf evs
    ∧ (∀ e, res = .error e → (runTurn jp st client cfg ctx history log).2 = .errored e)
    ∧ (∀ tr, res = .ok tr → tr ≠ c →
        (runTurn jp st client cfg ctx history log).2 =
          .continueWith (history ++ [⟨.assistant, c, none⟩, ⟨.tool, tr, none⟩]) c)
    ∧ (∀ tr, res = .ok tr → tr = c →
        (runTurn jp st client cfg ctx history log).2 = .finalized c) := by
  rw [hintedArgs] at hchat
  have hbody : runTurn jp st client cfg ctx history log =
      (let log2 := logToolEvents cfg.onTrace (afterChatLog cfg history log c) evs
       match res with
       | .error e => (log2, .errored e)
       | .ok tr =>
         if tr ≠ c then
           (log2, .continueWith
             (history ++ [⟨.assistant, c, none⟩, ⟨.tool, tr, none⟩]) c)
         else (log2, .finalized c)) := by
    simp only [runTurn, hchat, hhk, Bool.false_eq_true, if_false, hmet]
    rcases res with e | tr
    · rfl
    · rfl
  rw [hbody]
  refine ⟨?_, ?_, ?_, ?_⟩
  · rcases res with e | tr
    · simp [afterChatLog, chatReqLog]
    · by_cases htr : tr = c <;> simp [htr, afterChatLog, chatReqLog]
  · intro e he; subst he; rfl
  · intro tr htr hne; subst htr; simp [hne]
  · intro tr htr heq; subst htr; simp [heq]

/-- A turn whose provider call fails: the rejection propagates. -/
theorem runTurn_chat_error (jp : String → Option JValue) (st : JValue → String)
    (client : OpenAIClient ε) (cfg : AgentConfig ε) (ctx : ToolContext)
    (history : List Message) (log : RunLog) (e : ε)
    (hchat : client.chat (hintedArgs cfg history) = .error e) :
    runTurn jp st client cfg ctx history log = (chatReqLog cfg history log, .errored e) := by
  rw [hintedArgs] at hchat
  simp only [runTurn, hchat]
  rfl

theorem chatCall_not_mem_toolCallsOf (args : ChatArgs) (evs : List TraceEvent) :
    CallEvent.chatCall args ∉ toolCallsOf evs := by
  intro h
  rcases List.mem_filterMap.mp h with ⟨e, -, he⟩
  cases e <;> simp at he

/-- Every turn extends the call log by at most one provider call (whose
arguments are the hinted history) plus tool executions, and a continuing
turn only ever appends to the history. -/
theorem runTurn_shape (jp : String → Option JValue) (st : JValue → String)
    (client : OpenAIClient ε) (cfg : AgentConfig ε) (ctx : ToolContext)
    (history : List Message) (log : RunLog) :
    ∃ ext, (runTurn jp st client cfg ctx history log).1.calls = log.calls ++ ext
      ∧ countChatCalls ext ≤ 1
      ∧ (∀ args, CallEvent.chatCall args ∈ ext → args = hintedArgs cfg history)
      ∧ (∀ h' lc', (runTurn jp st client cfg ctx history log).2 = .continueWith h' lc' →
          ∃ ms, h' = history ++ ms) := by
  rcases hchat : client.chat (hintedArgs cfg history) with e | c
  · refine ⟨[.chatCall (hintedArgs cfg history)], ?_, ?_, ?_, ?_⟩
    · rw [runTurn_chat_error jp st client cfg ctx history log e hchat]; simp [chatReqLog]
    · simp [countChatCalls]
    · intro args h; exact CallEvent.chatCall.inj (List.mem_singleton.mp h)
    · intro h' lc' h
      rw [runTurn_chat_error jp st client cfg ctx history log e hchat] at h
      cases h
  · by_cases hhk : hasKey (tryParseObject jp c) "handoff" = true
    · rcases Option.eq_none_or_eq_some cfg.handoff with hand | ⟨hnd, hand⟩
      · obtain ⟨h2, h1⟩ := runTurn_handoff_noHandler jp st client cfg ctx history log c
          hchat hhk hand
        refine ⟨[.chatCall (hintedArgs cfg history)], h1, ?_, ?_, ?_⟩
        · simp [countChatCalls]
        · intro args h; exact CallEvent.chatCall.inj (List.mem_singleton.mp h)
        · intro h' lc' h; rw [h2] at h; cases h
      · rcases hr : hnd (handoffDest jp c) history ctx with e | r
        · obtain ⟨h2, h1⟩ := runTurn_handoff_error jp st client cfg ctx history log c
            hnd e hchat hhk hand hr
          refine ⟨_, h1, ?_, ?_, ?_⟩
          · simp [countChatCalls]
          · intro args h
            rcases List.mem_cons.mp h with h | h
            · exact CallEvent.chatCall.inj h
            · simp at h
          · intro h' lc' h; rw [h2] at h; cases h
        · obtain ⟨h2, h1⟩ := runTurn_handoff jp st client cfg ctx history log c
            hnd r hchat hhk hand hr
          refine ⟨_, h1, ?_, ?_, ?_⟩
          · simp [countChatCalls]
          · intro args h
            rcases List.mem_cons.mp h with h | h
            · exact CallEvent.chatCall.inj h
            · simp at h
          · intro h' lc' h; rw [h2] at h; cases h
    · rcases hmet : maybeExecuteTool jp st c cfg.tools ctx with ⟨evs, res⟩
      obtain ⟨h1, herr, hcont, hfin⟩ := runTurn_tool jp st client cfg ctx history log c
        evs res hchat (by simpa using hhk) hmet
      refine ⟨[.chatCall (hintedArgs cfg history)] ++ toolCallsOf evs, by simpa using h1,
        ?_, ?_, ?_⟩
      · rw [countChatCalls_append, countChatCalls_toolCallsOf]
        simp [countChatCalls]
      · intro args h
        rcases List.mem_append.mp h with h | h
        · exact CallEvent.chatCall.inj (List.mem_singleton.mp h)
        · exact absurd h (chatCall_not_mem_toolCallsOf args evs)
      · intro h' lc' h
        rcases res with e | tr
        · rw [herr e rfl] at h; cases h
        · by_cases htr : tr = c
          · rw [hfin tr rfl htr] at h; cases h
          · rw [hcont tr rfl htr] at h
            exact ⟨_, (TurnOutcome.continueWith.inj h).1.symm⟩

/-- Each loop iteration performs at most one provider call. -/
theorem runLoop_chatCalls_le (jp : String → Option JValue) (st : JValue → String)
    (client : OpenAIClient ε) (cfg : AgentConfig ε) (ctx : ToolContext) :
    ∀ (fuel : Nat) (history : List Message) (lc : String) (log : RunLog),
      countChatCalls (runLoop jp st client cfg ctx fuel history lc log).1.calls ≤
        countChatCalls log.calls + fuel := by
  intro fuel
  induction fuel with
  | zero => intro history lc log; simp [runLoop]
  | succ n ih =>
    intro history lc log
    rcases ht : runTurn jp st client cfg ctx history log with ⟨L, o⟩
    obtain ⟨ext, hcalls, hle, -, -⟩ := runTurn_shape jp st client cfg ctx history log
    rw [ht] at hcalls
    have hL : countChatCalls L.calls ≤ countChatCalls log.calls + 1 := by
      rw [hcalls, countChatCalls_append]; omega
    cases o with
    | errored e => simp only [runLoop, ht]; omega
    | handoffDone r => simp only [runLoop, ht]; omega
    | finalized c => simp only [runLoop, ht]; omega
    | continueWith h' lc' =>
      simp only [runLoop, ht]
      have := ih h' lc' L
      omega

/-- Loop invariant for the amended history-shape claim: with instructions
and a non-empty tool list, every provider call's message list is the
tool-hint system message, then the instructions system message, then the
guarded input extended by whatever the loop appended. -/
theorem runLoop_hint_shape (jp : String → Option JValue) (st : JValue → String)
    (client : OpenAIClient ε) (cfg : AgentConfig ε) (ctx : ToolContext)
    (ins : String) (ts : List (ToolDefinition ε)) (g : List Message)
    (htools : cfg.tools = some ts) (hne : ts.isEmpty = false) :
    ∀ (fuel : Nat) (history : List Message) (lc : String) (log : RunLog),
      (∃ e0, history = ⟨.system, ins, none⟩ :: (g ++ e0)) →
      (∀ args, CallEvent.chatCall args ∈ log.calls →
        ∃ extra, args.messages =
          ⟨.system, toolHintContent ts, none⟩ :: ⟨.system, ins, none⟩ :: (g ++ extra)) →
      ∀ args, CallEvent.chatCall args ∈
          (runLoop jp st client cfg ctx fuel history lc log).1.calls →
        ∃ extra, args.messages =
          ⟨.system, toolHintContent ts, none⟩ :: ⟨.system, ins, none⟩ :: (g ++ extra) := by
  intro fuel
  induction fuel with
  | zero =>
    intro history lc log _ hlog args hmem
    exact hlog args (by simpa [runLoop] using hmem)
  | succ n ih =>
    intro history lc log hinv hlog args hmem
    obtain ⟨e0, he0⟩ := hinv
    rcases ht : runTurn jp st client cfg ctx history log with ⟨L, o⟩
    obtain ⟨ext, hcalls, -, hargs, hconts⟩ := runTurn_shape jp st client cfg ctx history log
    rw [ht] at hcalls hconts
    have hlog' : ∀ args, CallEvent.chatCall args ∈ L.calls →
        ∃ extra, args.messages =
          ⟨.system, toolHintContent ts, none⟩ :: ⟨.system, ins, none⟩ :: (g ++ extra) := by
      intro args hm
      rw [hcalls] at hm
      rcases List.mem_append.mp hm with hm | hm
      · exact hlog args hm
      · refine ⟨e0, ?_⟩
        rw [hargs args hm]
        simp [hintedArgs, withToolCallHints, htools, hne, he0]
    cases o with
    | errored e =>
      exact hlog' args (by simpa only [runLoop, ht] using hmem)
    | handoffDone r =>
      exact hlog' args (by simpa only [runLoop, ht] using hmem)
    | finalized c =>
      exact hlog' args (by simpa only [runLoop, ht] using hmem)
    | continueWith h' lc' =>
      simp only [runLoop, ht] at hmem
      obtain ⟨ms, hms⟩ := hconts h' lc' rfl
      refine ih h' lc' L ⟨e0 ++ ms, ?_⟩ hlog' args hmem
      rw [hms, he0]
      simp

@[simp] theorem finalizeRun_calls (jp : String → Option JValue) (cfg : AgentConfig ε)
    (input : RunInput ε) (log : RunLog) (c : String) :
    (finalizeRun jp cfg input log c).1.calls = log.calls := by
  rw [finalizeRun]
  split
  · rfl
  · split
    · simp
    · split <;> simp

/-- Finalization with no output guard and no expected schema returns the
last content unchanged. -/
theorem finalizeRun_plain (jp : String → Option JValue) (cfg : AgentConfig ε)
    (input : RunInput ε) (log : RunLog) (c : String)
    (hog : cfg.outputGuard = none) (hex : input.expect = none) :
    finalizeRun jp cfg input log c =
      (emitTrace cfg.onTrace log (.agentStop cfg.name), .ok ⟨c, none⟩) := by
  rw [finalizeRun, hog, hex]
  rfl

@[simp] theorem startLog_calls (cfg : AgentConfig ε) : (startLog cfg).calls = [] := by
  simp [startLog]

/-- C1: for every agent configuration, provider, and run input with
`maxToolPasses = k ≥ 0` (`k` defaulting to 3 when omitted), a single call to
`run` invokes the provider's `chat` function at most `max(1, k + 1)` times,
no matter how many tool-call directives the provider's responses contain. -/
theorem run_provider_call_bound (jp : String → Option JValue) (st : JValue → String)
    (client : OpenAIClient ε) (cfg : AgentConfig ε) (input : RunInput ε) (k : Int)
    (hk : input.maxToolPasses.getD 3 = k) (hk0 : 0 ≤ k) :
    countChatCalls (runAgent jp st client cfg input).1.calls ≤ (max 1 (k + 1)).toNat := by
  rw [runAgent]
  rcases hg : applyGuard cfg.inputGuard input.messages with e | g
  · simp [countChatCalls]
  · simp only [hk]
    have hb := runLoop_chatCalls_le jp st client cfg input.context
      ((max 1 (k + 1)).toNat) (seedHistory cfg g) "" (startLog cfg)
    rcases hl : runLoop jp st client cfg input.context ((max 1 (k + 1)).toNat)
        (seedHistory cfg g) "" (startLog cfg) with ⟨L, res⟩
    rw [hl] at hb
    simp only [startLog_calls] at hb
    have hb' : countChatCalls L.calls ≤ (max 1 (k + 1)).toNat := by
      have h0 : countChatCalls ([] : List CallEvent) = 0 := rfl
      rw [h0] at hb
      omega
    rcases res with e | lexit
    · exact hb'
    · rcases lexit with c | r
      · rw [finalizeRun_calls]
        exact hb'
      · exact hb'

theorem run_provider_call_bound_witness :
    countChatCalls (runAgent jpCalc stNull (clientConst calcDirectiveText)
      { tools := some [calcTool] }
      { messages := [⟨.user, "hi", none⟩], maxToolPasses := some 2 }).1.calls ≤
        (max 1 ((2 : Int) + 1)).toNat :=
  run_provider_call_bound jpCalc stNull (clientConst calcDirectiveText)
    { tools := some [calcTool] }
    { messages := [⟨.user, "hi", none⟩], maxToolPasses := some 2 } 2 rfl (by decide)

/-- C2 (amended): in every provider call made during a run of an agent that
has both instructions and a non-empty tool list, the message list passed to
`chat` begins with the synthesized tool-hint system message first, followed
by the synthesized instructions system message second, followed by the
accumulated conversation. -/
theorem run_hint_first_message_order (jp : String → Option JValue)
    (st : JValue → String) (client : OpenAIClient ε) (cfg : AgentConfig ε)
    (input : RunInput ε) (ins : String) (ts : List (ToolDefinition ε))
    (g : List Message)
    (hins : cfg.instructions = some ins)
    (htools : cfg.tools = some ts) (hne : ts ≠ [])
    (hg : applyGuard cfg.inputGuard input.messages = .ok g) :
    ∀ args, CallEvent.chatCall args ∈ (runAgent jp st client cfg input).1.calls →
      ∃ extra, args.messages =
        ⟨.system, toolHintContent ts, none⟩ :: ⟨.system, ins, none⟩ :: (g ++ extra) := by
  intro args hmem
  simp only [runAgent, hg] at hmem
  rcases hl : runLoop jp st client cfg input.context
      ((max 1 ((input.maxToolPasses.getD 3) + 1)).toNat)
      (seedHistory cfg g) "" (startLog cfg) with ⟨L, res⟩
  rw [hl] at hmem
  have hmem' : CallEvent.chatCall args ∈ L.calls := by
    rcases res with e | lexit
    · exact hmem
    · rcases lexit with c | r
      · simpa only [finalizeRun_calls] using hmem
      · exact hmem
  have hshape := runLoop_hint_shape jp st client cfg input.context ins ts g htools
    (by simpa using hne)
    ((max 1 ((input.maxToolPasses.getD 3) + 1)).toNat) (seedHistory cfg g) "" (startLog cfg)
    ⟨[], by simp [seedHistory, hins]⟩
    (by intro args h; simp only [startLog_calls] at h; cases h)
    args
  rw [hl] at hshape
  exact hshape hmem'

/-- C2 counterexample: with instructions `"INSTR"` and one configured tool,
the single provider call's message list has the tool-hint system message
first and the instructions system message second — not the order the claim
states (the two messages differ). -/
theorem run_hint_order_counterexample :
    ((runAgent jpNone stNull (clientConst "hello")
        { instructions := some "INSTR", tools := some [calcTool] }
        { messages := [⟨.user, "hi", none⟩] }).1.calls.map chatMessagesOf) =
      [[⟨.system, toolHintContent [calcTool], none⟩, ⟨.system, "INSTR", none⟩,
        ⟨.user, "hi", none⟩]]
    ∧ toolHintContent [calcTool] ≠ "INSTR" := by
  constructor
  · rfl
  · decide

theorem run_hint_first_message_order_witness :
    ∃ extra,
      (⟨"gpt-4o-mini",
        [⟨.system, toolHintContent [calcTool], none⟩, ⟨.system, "INSTR", none⟩,
         ⟨.user, "hi", none⟩], 2/10⟩ : ChatArgs).messages =
        ⟨.system, toolHintContent [calcTool], none⟩ :: ⟨.system, "INSTR", none⟩ ::
          ([⟨.user, "hi", none⟩] ++ extra) := by
  have h := run_hint_first_message_order jpNone stNull (clientConst "hello")
    { instructions := some "INSTR", tools := some [calcTool] }
    { messages := [⟨.user, "hi", none⟩] } "INSTR" [calcTool] [⟨.user, "hi", none⟩]
    rfl rfl (by simp) rfl
  refine h _ ?_
  have e : (runAgent jpNone stNull (clientConst "hello")
      { instructions := some "INSTR", tools := some [calcTool] }
      { messages := [⟨.user, "hi", none⟩] }).1.calls =
      [CallEvent.chatCall ⟨"gpt-4o-mini",
        [⟨.system, toolHintContent [calcTool], none⟩, ⟨.system, "INSTR", none⟩,
         ⟨.user, "hi", none⟩], 2/10⟩] := rfl
  rw [e]
  exact List.mem_singleton_self _

/-- One-turn loop reduction: a response with no parsable directive ends the
loop on that turn. -/
theorem runLoop_finalize_of_no_directive (jp : String → Option JValue)
    (st : JValue → String) (client : OpenAIClient ε) (cfg : AgentConfig ε)
    (ctx : ToolContext) (fuel : Nat) (history : List Message) (lc : String)
    (log : RunLog) (c : String)
    (hchat : client.chat (hintedArgs cfg history) = .ok c)
    (htp : tryParseObject jp c = none) :
    runLoop jp st client cfg ctx (fuel + 1) history lc log =
      (afterChatLog cfg history log c, .ok (.finalizeWith c)) := by
  have ht := runTurn_no_directive jp st client cfg ctx history log c hchat htp
  simp only [runLoop, ht]

/-- One-turn loop reduction: a handoff directive with a configured callback
that succeeds returns the callback's result immediately. -/
theorem runLoop_handoff_turn (jp : String → Option JValue) (st : JValue → String)
    (client : OpenAIClient ε) (cfg : AgentConfig ε) (ctx : ToolContext)
    (fuel : Nat) (history : List Message) (lc : String) (log : RunLog) (c : String)
    (hnd : JValue → List Message → ToolContext → Except ε RunResult) (r : RunResult)
    (hchat : client.chat (hintedArgs cfg history) = .ok c)
    (hhk : hasKey (tryParseObject jp c) "handoff" = true)
    (hand : cfg.handoff = some hnd)
    (hr : hnd (handoffDest jp c) history ctx = .ok r) :
    (runLoop jp st client cfg ctx (fuel + 1) history lc log).2 = .ok (.handoffResult r)
    ∧ (runLoop jp st client cfg ctx (fuel + 1) history lc log).1.calls =
        log.calls ++ [.chatCall (hintedArgs cfg history),
                      .handoffCall (handoffDest jp c) history ctx] := by
  obtain ⟨h2, h1⟩ := runTurn_handoff jp st client cfg ctx history log c hnd r
    hchat hhk hand hr
  rcases ht : runTurn jp st client cfg ctx history log with ⟨L, o⟩
  rw [ht] at h2 h1
  have ho : o = .handoffDone r := h2
  subst ho
  simp only [runLoop, ht]
  exact ⟨trivial, h1⟩

/-- One-turn loop reduction: a matching tool directive whose `execute`
throws aborts the whole loop with that error. -/
theorem runLoop_tool_error_turn (jp : String → Option JValue) (st : JValue → String)
    (client : OpenAIClient ε) (cfg : AgentConfig ε) (ctx : ToolContext)
    (fuel : Nat) (history : List Message) (lc : String) (log : RunLog) (c : String)
    (evs : List TraceEvent) (e : ε)
    (hchat : client.chat (hintedArgs cfg history) = .ok c)
    (hhk : hasKey (tryParseObject jp c) "handoff" = false)
    (hmet : maybeExecuteTool jp st c cfg.tools ctx = (evs, .error e)) :
    (runLoop jp st client cfg ctx (fuel + 1) history lc log).2 = .error e := by
  obtain ⟨-, herr, -, -⟩ := runTurn_tool jp st client cfg ctx history log c evs
    (.error e) hchat hhk hmet
  rcases ht : runTurn jp st client cfg ctx history log with ⟨L, o⟩
  have h2 := herr e rfl
  rw [ht] at h2
  have ho : o = .errored e := h2
  subst ho
  simp only [runLoop, ht]

/-- Single-pass loop reduction (`maxToolPasses = 0`): one provider call, the
tool dispatcher runs and succeeds, and whatever it returned the loop ends on
this sole iteration with the raw response as last content. -/
theorem runLoop_tool_single_pass (jp : String → Option JValue) (st : JValue → String)
    (client : OpenAIClient ε) (cfg : AgentConfig ε) (ctx : ToolContext)
    (history : List Message) (lc : String) (log : RunLog) (c : String)
    (evs : List TraceEvent) (tr : String)
    (hchat : client.chat (hintedArgs cfg history) = .ok c)
    (hhk : hasKey (tryParseObject jp c) "handoff" = false)
    (hmet : maybeExecuteTool jp st c cfg.tools ctx = (evs, .ok tr)) :
    (runLoop jp st client cfg ctx 1 history lc log).2 = .ok (.finalizeWith c)
    ∧ (runLoop jp st client cfg ctx 1 history lc log).1.calls =
        log.calls ++ [.chatCall (hintedArgs cfg history)] ++ toolCallsOf evs := by
  obtain ⟨h1, -, hcont, hfin⟩ := runTurn_tool jp st client cfg ctx history log c evs
    (.ok tr) hchat hhk hmet
  rcases ht : runTurn jp st client cfg ctx history log with ⟨L, o⟩
  rw [ht] at h1
  by_cases htr : tr = c
  · have h2 := hfin tr rfl htr
    rw [ht] at h2
    have ho : o = .finalized c := h2
    subst ho
    simp only [runLoop, ht]
    exact ⟨trivial, h1⟩
  · have h2 := hcont tr rfl htr
    rw [ht] at h2
    have ho : o = .continueWith
        (history ++ [⟨.assistant, c, none⟩, ⟨.tool, tr, none⟩]) c := h2
    subst ho
    simp only [runLoop, ht]
    exact ⟨trivial, h1⟩

/-- C3 counterexample: with `maxToolPasses = 0` and a provider returning a
valid tool-call directive, the run makes one provider call and returns the
raw directive text — but the tool IS executed (a `toolCall` event is
recorded), contrary to the claim that it is never executed. -/
theorem run_zero_passes_counterexample :
    (runAgent jpCalc stNull (clientConst calcDirectiveText)
        { tools := some [calcTool] }
        { messages := [⟨.user, "hi", none⟩], maxToolPasses := some 0 }).1.calls =
      [.chatCall ⟨"gpt-4o-mini",
         [⟨.system, toolHintContent [calcTool], none⟩, ⟨.user, "hi", none⟩], 2/10⟩,
       .toolCall "calc" (.obj [])]
    ∧ (runAgent jpCalc stNull (clientConst calcDirectiveText)
        { tools := some [calcTool] }
        { messages := [⟨.user, "hi", none⟩], maxToolPasses := some 0 }).2 =
      .ok ⟨calcDirectiveText, none⟩ :=
  ⟨rfl, rfl⟩

/-- C3 (amended): for every agent with a configured tool and a provider
whose response is a valid tool-call directive for that tool (and no handoff
key), calling `run` with `maxToolPasses = 0` makes exactly one provider
call, executes the tool exactly once (discarding its result), and — with no
output guard or expected schema — returns the raw tool-call JSON text as
the final content. -/
theorem run_zero_passes_executes_tool_once (jp : String → Option JValue)
    (st : JValue → String) (client : OpenAIClient ε) (cfg : AgentConfig ε)
    (input : RunInput ε) (ts : List (ToolDefinition ε)) (t : ToolDefinition ε)
    (tc : ToolCallDirective) (r : JValue) (c : String) (g : List Message)
    (hmt : input.maxToolPasses = some 0)
    (htools : cfg.tools = some ts)
    (hchat : ∀ a, client.chat a = .ok c)
    (hhk : hasKey (tryParseObject jp c) "handoff" = false)
    (hpc : parseToolCall jp c = some tc)
    (hfind : ts.find? (fun t => jstrEq tc.tool t.name) = some t)
    (hex : t.execute tc.args input.context = .ok r)
    (hog : cfg.outputGuard = none) (hexp : input.expect = none)
    (hg : applyGuard cfg.inputGuard input.messages = .ok g) :
    (runAgent jp st client cfg input).2 = .ok ⟨c, none⟩
    ∧ countChatCalls (runAgent jp st client cfg input).1.calls = 1
    ∧ countToolCalls (runAgent jp st client cfg input).1.calls = 1 := by
  have hne : ts.isEmpty = false := by
    cases ts
    · simp at hfind
    · rfl
  have hmet : maybeExecuteTool jp st c cfg.tools input.context =
      ([.toolStart t.name tc.args, .toolStop t.name r],
       .ok (stringifyResult st r)) := by
    rw [maybeExecuteTool.eq_def, htools]
    simp [hne, hpc, hfind, hex]
  have hfuel : (max 1 ((input.maxToolPasses.getD 3) + 1)).toNat = 1 := by
    rw [hmt]; rfl
  obtain ⟨h2, h1⟩ := runLoop_tool_single_pass jp st client cfg input.context
    (seedHistory cfg g) "" (startLog cfg) c
    [.toolStart t.name tc.args, .toolStop t.name r] (stringifyResult st r)
    (hchat _) hhk hmet
  rcases hl : runLoop jp st client cfg input.context 1
      (seedHistory cfg g) "" (startLog cfg) with ⟨L, res⟩
  rw [hl] at h2 h1
  have hres : res = .ok (.finalizeWith c) := h2
  subst hres
  have hag : runAgent jp st client cfg input = finalizeRun jp cfg input L c := by
    simp only [runAgent, hg, hfuel, hl]
  rw [hag, finalizeRun_plain jp cfg input L c hog hexp]
  have h1' : L.calls =
      [CallEvent.chatCall (hintedArgs cfg (seedHistory cfg g)),
       CallEvent.toolCall t.name tc.args] := by
    simpa [toolCallsOf] using h1
  refine ⟨rfl, ?_, ?_⟩
  · simp only [emitTrace_calls, h1']
    rfl
  · simp only [emitTrace_calls, h1']
    rfl

theorem run_zero_passes_executes_tool_once_witness :
    ((runAgent jpCalc stNull (clientConst calcDirectiveText)
        { tools := some [calcTool] }
        { messages := [⟨.user, "hi", none⟩], maxToolPasses := some 0 }).2 =
      .ok ⟨calcDirectiveText, none⟩)
    ∧ countChatCalls (runAgent jpCalc stNull (clientConst calcDirectiveText)
        { tools := some [calcTool] }
        { messages := [⟨.user, "hi", none⟩], maxToolPasses := some 0 }).1.calls = 1
    ∧ countToolCalls (runAgent jpCalc stNull (clientConst calcDirectiveText)
        { tools := some [calcTool] }
        { messages := [⟨.user, "hi", none⟩], maxToolPasses := some 0 }).1.calls = 1 :=
  run_zero_passes_executes_tool_once jpCalc stNull (clientConst calcDirectiveText)
    { tools := some [calcTool] }
    { messages := [⟨.user, "hi", none⟩], maxToolPasses := some 0 }
    [calcTool] calcTool ⟨.str "calc", .obj []⟩ (.str "4") calcDirectiveText
    [⟨.user, "hi", none⟩]
    rfl rfl (fun _ => rfl) rfl rfl rfl rfl rfl rfl rfl

/-- The loop always gets at least one iteration (`Math.max(1, k + 1)`). -/
theorem fuel_pos (k : Int) : ∃ n : Nat, (max 1 (k + 1)).toNat = n + 1 := by
  have h : (1 : Int) ≤ max 1 (k + 1) := le_max_left _ _
  refine ⟨(max 1 (k + 1)).toNat - 1, ?_⟩
  omega

def badSchema : StructuredSchema String := ⟨fun _ => .error "schema"⟩

def handoffAgentCfg : AgentConfig String :=
  { handoff := some (fun _ _ _ => .ok ⟨"hola", none⟩),
    outputGuard := some (fun s => .ok (s ++ "!")) }

/-- C4: whenever a provider response parses to an object containing a
`handoff` key and a handoff callback is configured, the run invokes the
callback with `(to, history, context)` and returns its result verbatim —
making no further provider calls, dispatching no tool, and applying neither
`outputGuard` nor the `expect` schema to the result.  Stated both for an
arbitrary turn of the loop and for a whole run. -/
theorem run_handoff_returns_verbatim :
    (∀ {ε : Type} (jp : String → Option JValue) (st : JValue → String)
        (client : OpenAIClient ε) (cfg : AgentConfig ε) (ctx : ToolContext)
        (fuel : Nat) (history : List Message) (lc : String) (log : RunLog)
        (c : String) (hnd : JValue → List Message → ToolContext → Except ε RunResult)
        (r : RunResult),
      client.chat (hintedArgs cfg history) = .ok c →
      hasKey (tryParseObject jp c) "handoff" = true →
      cfg.handoff = some hnd →
      hnd (handoffDest jp c) history ctx = .ok r →
      (runLoop jp st client cfg ctx (fuel + 1) history lc log).2 =
        .ok (.handoffResult r)
      ∧ (runLoop jp st client cfg ctx (fuel + 1) history lc log).1.calls =
          log.calls ++ [.chatCall (hintedArgs cfg history),
                        .handoffCall (handoffDest jp c) history ctx])
    ∧ (∀ {ε : Type} (jp : String → Option JValue) (st : JValue → String)
        (client : OpenAIClient ε) (cfg : AgentConfig ε) (input : RunInput ε)
        (c : String) (hnd : JValue → List Message → ToolContext → Except ε RunResult)
        (r : RunResult) (g : List Message),
      (∀ a, client.chat a = .ok c) →
      hasKey (tryParseObject jp c) "handoff" = true →
      cfg.handoff = some hnd →
      applyGuard cfg.inputGuard input.messages = .ok g →
      hnd (handoffDest jp c) (seedHistory cfg g) input.context = .ok r →
      (runAgent jp st client cfg input).2 = .ok r
      ∧ (runAgent jp st client cfg input).1.calls =
          [.chatCall (hintedArgs cfg (seedHistory cfg g)),
           .handoffCall (handoffDest jp c) (seedHistory cfg g) input.context]) := by
  constructor
  · intro ε jp st client cfg ctx fuel history lc log c hnd r hchat hhk hand hr
    exact runLoop_handoff_turn jp st client cfg ctx fuel history lc log c hnd r
      hchat hhk hand hr
  · intro ε jp st client cfg input c hnd r g hchat hhk hand hg hr
    obtain ⟨n, hn⟩ := fuel_pos (input.maxToolPasses.getD 3)
    obtain ⟨h2, h1⟩ := runLoop_handoff_turn jp st client cfg input.context n
      (seedHistory cfg g) "" (startLog cfg) c hnd r (hchat _) hhk hand hr
    rcases hl : runLoop jp st client cfg input.context (n + 1)
        (seedHistory cfg g) "" (startLog cfg) with ⟨L, res⟩
    rw [hl] at h2 h1
    have hres : res = .ok (.handoffResult r) := h2
    subst hres
    have hag : runAgent jp st client cfg input = (L, .ok r) := by
      simp only [runAgent, hg, hn, hl]
    rw [hag]
    refine ⟨rfl, ?_⟩
    have h1' : L.calls = (startLog cfg).calls ++
        [.chatCall (hintedArgs cfg (seedHistory cfg g)),
         .handoffCall (handoffDest jp c) (seedHistory cfg g) input.context] := h1
    simpa using h1'

theorem run_handoff_returns_verbatim_witness :
    ((runAgent jpHandoff stNull (clientConst handoffText) handoffAgentCfg
        { messages := [⟨.user, "hi", none⟩], expect := some badSchema }).2 =
      .ok ⟨"hola", none⟩)
    ∧ (runAgent jpHandoff stNull (clientConst handoffText) handoffAgentCfg
        { messages := [⟨.user, "hi", none⟩], expect := some badSchema }).1.calls =
      [.chatCall ⟨"gpt-4o-mini", [⟨.user, "hi", none⟩], 2/10⟩,
       .handoffCall (.str "Spanish") [⟨.user, "hi", none⟩] {}] :=
  run_handoff_returns_verbatim.2 jpHandoff stNull (clientConst handoffText)
    handoffAgentCfg { messages := [⟨.user, "hi", none⟩], expect := some badSchema }
    handoffText (fun _ _ _ => .ok ⟨"hola", none⟩) ⟨"hola", none⟩ [⟨.user, "hi", none⟩]
    (fun _ => rfl) rfl rfl rfl rfl

def boomTool : ToolDefinition String :=
  { name := "calc", execute := fun _ _ => .error "boom" }

/-- Dispatcher-level helper: a matching directive whose `execute` fails
yields the error (after the `tool:start` event, with no `tool:stop`). -/
theorem maybeExecuteTool_error (jp : String → Option JValue) (st : JValue → String)
    (content : String) (ts : List (ToolDefinition ε)) (ctx : ToolContext)
    (tc : ToolCallDirective) (t : ToolDefinition ε) (e : ε)
    (hpc : parseToolCall jp content = some tc)
    (hfind : ts.find? (fun t => jstrEq tc.tool t.name) = some t)
    (hex : t.execute tc.args ctx = .error e) :
    maybeExecuteTool jp st content (some ts) ctx =
      ([.toolStart t.name tc.args], .error e) := by
  have hne : ts.isEmpty = false := by
    cases ts
    · simp at hfind
    · rfl
  simp [maybeExecuteTool, hne, hpc, hfind, hex]

/-- C7: a tool whose `execute` throws when dispatched with a matching
directive is not caught by the dispatcher or the run loop: the error
propagates out of `run` unmodified and the run produces no result.  Stated
for the dispatcher, for an arbitrary turn of the loop, and for a whole run. -/
theorem run_tool_error_propagates :
    (∀ {ε : Type} (jp : String → Option JValue) (st : JValue → String)
        (content : String) (ts : List (ToolDefinition ε)) (ctx : ToolContext)
        (tc : ToolCallDirective) (t : ToolDefinition ε) (e : ε),
      parseToolCall jp content = some tc →
      ts.find? (fun t => jstrEq tc.tool t.name) = some t →
      t.execute tc.args ctx = .error e →
      maybeExecuteTool jp st content (some ts) ctx =
        ([.toolStart t.name tc.args], .error e))
    ∧ (∀ {ε : Type} (jp : String → Option JValue) (st : JValue → String)
        (client : OpenAIClient ε) (cfg : AgentConfig ε) (ctx : ToolContext)
        (fuel : Nat) (history : List Message) (lc : String) (log : RunLog)
        (c : String) (ts : List (ToolDefinition ε)) (tc : ToolCallDirective)
        (t : ToolDefinition ε) (e : ε),
      cfg.tools = some ts →
      client.chat (hintedArgs cfg history) = .ok c →
      hasKey (tryParseObject jp c) "handoff" = false →
      parseToolCall jp c = some tc →
      ts.find? (fun t => jstrEq tc.tool t.name) = some t →
      t.execute tc.args ctx = .error e →
      (runLoop jp st client cfg ctx (fuel + 1) history lc log).2 = .error e)
    ∧ (∀ {ε : Type} (jp : String → Option JValue) (st : JValue → String)
        (client : OpenAIClient ε) (cfg : AgentConfig ε) (input : RunInput ε)
        (c : String) (ts : List (ToolDefinition ε)) (tc : ToolCallDirective)
        (t : ToolDefinition ε) (e : ε) (g : List Message),
      cfg.tools = some ts →
      (∀ a, client.chat a = .ok c) →
      hasKey (tryParseObject jp c) "handoff" = false →
      parseToolCall jp c = some tc →
      ts.find? (fun t => jstrEq tc.tool t.name) = some t →
      t.execute tc.args input.context = .error e →
      applyGuard cfg.inputGuard input.messages = .ok g →
      (runAgent jp st client cfg input).2 = .error e) := by
  refine ⟨?_, ?_, ?_⟩
  · intro ε jp st content ts ctx tc t e hpc hfind hex
    exact maybeExecuteTool_error jp st content ts ctx tc t e hpc hfind hex
  · intro ε jp st client cfg ctx fuel history lc log c ts tc t e htools hchat hhk
      hpc hfind hex
    have hmet : maybeExecuteTool jp st c cfg.tools ctx =
        ([.toolStart t.name tc.args], .error e) := by
      rw [htools]
      exact maybeExecuteTool_error jp st c ts ctx tc t e hpc hfind hex
    exact runLoop_tool_error_turn jp st client cfg ctx fuel history lc log c
      [.toolStart t.name tc.args] e hchat hhk hmet
  · intro ε jp st client cfg input c ts tc t e g htools hchat hhk hpc hfind hex hg
    have hmet : maybeExecuteTool jp st c cfg.tools input.context =
        ([.toolStart t.name tc.args], .error e) := by
      rw [htools]
      exact maybeExecuteTool_error jp st c ts input.context tc t e hpc hfind hex
    obtain ⟨n, hn⟩ := fuel_pos (input.maxToolPasses.getD 3)
    have h2 := runLoop_tool_error_turn jp st client cfg input.context n
      (seedHistory cfg g) "" (startLog cfg) c [.toolStart t.name tc.args] e
      (hchat _) hhk hmet
    rcases hl : runLoop jp st client cfg input.context (n + 1)
        (seedHistory cfg g) "" (startLog cfg) with ⟨L, res⟩
    rw [hl] at h2
    have hres : res = .error e := h2
    subst hres
    have hag : runAgent jp st client cfg input = (L, .error e) := by
      simp only [runAgent, hg, hn, hl]
    rw [hag]

theorem run_tool_error_propagates_witness :
    (runAgent jpCalc stNull (clientConst calcDirectiveText)
      { tools := some [boomTool] } { messages := [⟨.user, "hi", none⟩] }).2 =
      .error "boom" :=
  run_tool_error_propagates.2.2 jpCalc stNull (clientConst calcDirectiveText)
    { tools := some [boomTool] } { messages := [⟨.user, "hi", none⟩] }
    calcDirectiveText [boomTool] ⟨.str "calc", .obj []⟩ boomTool "boom"
    [⟨.user, "hi", none⟩] rfl (fun _ => rfl) rfl rfl rfl rfl rfl

/-- Dispatcher-level helper: a matching directive whose `execute` succeeds
emits `tool:start`/`tool:stop` and returns the (string-coerced) result. -/
theorem maybeExecuteTool_ok (jp : String → Option JValue) (st : JValue → String)
    (content : String) (ts : List (ToolDefinition ε)) (ctx : ToolContext)
    (tc : ToolCallDirective) (t : ToolDefinition ε) (r : JValue)
    (hpc : parseToolCall jp content = some tc)
    (hfind : ts.find? (fun t => jstrEq tc.tool t.name) = some t)
    (hex : t.execute tc.args ctx = .ok r) :
    maybeExecuteTool jp st content (some ts) ctx =
      ([.toolStart t.name tc.args, .toolStop t.name r],
       .ok (stringifyResult st r)) := by
  have hne : ts.isEmpty = false := by
    cases ts
    · simp at hfind
    · rfl
  simp [maybeExecuteTool, hne, hpc, hfind, hex]

/-- The full log of a tool-dispatching turn. -/
theorem runTurn_tool_log (jp : String → Option JValue) (st : JValue → String)
    (client : OpenAIClient ε) (cfg : AgentConfig ε) (ctx : ToolContext)
    (history : List Message) (log : RunLog) (c : String)
    (evs : List TraceEvent) (res : Except ε String)
    (hchat : client.chat (hintedArgs cfg history) = .ok c)
    (hhk : hasKey (tryParseObject jp c) "handoff" = false)
    (hmet : maybeExecuteTool jp st c cfg.tools ctx = (evs, res)) :
    (runTurn jp st client cfg ctx history log).1 =
      logToolEvents cfg.onTrace (afterChatLog cfg history log c) evs := by
  rw [hintedArgs] at hchat
  simp only [runTurn, hchat, hhk, Bool.false_eq_true, if_false, hmet]
  rcases res with e | tr
  · simp [afterChatLog, chatReqLog, hintedArgs]
  · by_cases htr : tr = c <;> simp [htr, afterChatLog, chatReqLog, hintedArgs]

/-- One-turn loop reduction for a tool whose result equals the response
text: the turn is classified as final, with the tool nevertheless executed
and traced. -/
theorem runLoop_tool_echo_turn (jp : String → Option JValue) (st : JValue → String)
    (client : OpenAIClient ε) (cfg : AgentConfig ε) (ctx : ToolContext)
    (fuel : Nat) (history : List Message) (lc : String) (log : RunLog) (c : String)
    (ts : List (ToolDefinition ε)) (tc : ToolCallDirective) (t : ToolDefinition ε)
    (htools : cfg.tools = some ts)
    (hchat : client.chat (hintedArgs cfg history) = .ok c)
    (hhk : hasKey (tryParseObject jp c) "handoff" = false)
    (hpc : parseToolCall jp c = some tc)
    (hfind : ts.find? (fun t => jstrEq tc.tool t.name) = some t)
    (hex : t.execute tc.args ctx = .ok (.str c)) :
    (runLoop jp st client cfg ctx (fuel + 1) history lc log).2 =
      .ok (.finalizeWith c)
    ∧ (runLoop jp st client cfg ctx (fuel + 1) history lc log).1.calls =
        log.calls ++ [.chatCall (hintedArgs cfg history), .toolCall t.name tc.args]
    ∧ (cfg.onTrace = true →
        (runLoop jp st client cfg ctx (fuel + 1) history lc log).1.trace =
          log.trace ++
            [.llmRequest (cfg.model.getD "gpt-4o-mini") (withToolCallHints history cfg.tools),
             .llmResponse c, .toolStart t.name tc.args, .toolStop t.name (.str c)]) := by
  have hmet : maybeExecuteTool jp st c cfg.tools ctx =
      ([.toolStart t.name tc.args, .toolStop t.name (.str c)], .ok c) := by
    rw [htools]
    exact maybeExecuteTool_ok jp st c ts ctx tc t (.str c) hpc hfind hex
  have hlog := runTurn_tool_log jp st client cfg ctx history log c
    [.toolStart t.name tc.args, .toolStop t.name (.str c)] (.ok c) hchat hhk hmet
  obtain ⟨-, -, -, hfin⟩ := runTurn_tool jp st client cfg ctx history log c
    [.toolStart t.name tc.args, .toolStop t.name (.str c)] (.ok c) hchat hhk hmet
  have h2 := hfin c rfl rfl
  rcases ht : runTurn jp st client cfg ctx history log with ⟨L, o⟩
  rw [ht] at hlog h2
  have ho : o = .finalized c := h2
  subst ho
  have hL : L = logToolEvents cfg.onTrace (afterChatLog cfg history log c)
      [.toolStart t.name tc.args, .toolStop t.name (.str c)] := hlog
  subst hL
  simp only [runLoop, ht]
  refine ⟨trivial, ?_, ?_⟩
  · simp [logToolEvents, toolCallsOf]
  · intro honT
    simp [logToolEvents, afterChatLog, chatReqLog, emitTrace, recordCall, honT]

def echoDirectiveTool : ToolDefinition String :=
  { name := "calc", execute := fun _ _ => .ok (.str calcDirectiveText) }

/-- C10: when a dispatched tool's `execute` returns a string exactly equal
to the model's response text (the directive itself), the loop classifies
that turn as final — it appends no further messages, makes no further
provider call, and returns that text as content — even though the tool was
executed and its `tool:start`/`tool:stop` trace events were emitted.
Stated for an arbitrary turn of the loop and for a whole run. -/
theorem run_tool_result_equals_input_sentinel :
    (∀ {ε : Type} (jp : String → Option JValue) (st : JValue → String)
        (client : OpenAIClient ε) (cfg : AgentConfig ε) (ctx : ToolContext)
        (fuel : Nat) (history : List Message) (lc : String) (log : RunLog)
        (c : String) (ts : List (ToolDefinition ε)) (tc : ToolCallDirective)
        (t : ToolDefinition ε),
      cfg.tools = some ts →
      client.chat (hintedArgs cfg history) = .ok c →
      hasKey (tryParseObject jp c) "handoff" = false →
      parseToolCall jp c = some tc →
      ts.find? (fun t => jstrEq tc.tool t.name) = some t →
      t.execute tc.args ctx = .ok (.str c) →
      (runLoop jp st client cfg ctx (fuel + 1) history lc log).2 =
        .ok (.finalizeWith c)
      ∧ (runLoop jp st client cfg ctx (fuel + 1) history lc log).1.calls =
          log.calls ++ [.chatCall (hintedArgs cfg history), .toolCall t.name tc.args]
      ∧ (cfg.onTrace = true →
          (runLoop jp st client cfg ctx (fuel + 1) history lc log).1.trace =
            log.trace ++
              [.llmRequest (cfg.model.getD "gpt-4o-mini")
                 (withToolCallHints history cfg.tools),
               .llmResponse c, .toolStart t.name tc.args,
               .toolStop t.name (.str c)]))
    ∧ (∀ {ε : Type} (jp : String → Option JValue) (st : JValue → String)
        (client : OpenAIClient ε) (cfg : AgentConfig ε) (input : RunInput ε)
        (c : String) (ts : List (ToolDefinition ε)) (tc : ToolCallDirective)
        (t : ToolDefinition ε) (g : List Message),
      cfg.tools = some ts →
      (∀ a, client.chat a = .ok c) →
      hasKey (tryParseObject jp c) "handoff" = false →
      parseToolCall jp c = some tc →
      ts.find? (fun t => jstrEq tc.tool t.name) = some t →
      t.execute tc.args input.context = .ok (.str c) →
      cfg.outputGuard = none → input.expect = none →
      applyGuard cfg.inputGuard input.messages = .ok g →
      (runAgent jp st client cfg input).2 = .ok ⟨c, none⟩
      ∧ countChatCalls (runAgent jp st client cfg input).1.calls = 1
      ∧ countToolCalls (runAgent jp st client cfg input).1.calls = 1) := by
  constructor
  · intro ε jp st client cfg ctx fuel history lc log c ts tc t htools hchat hhk
      hpc hfind hex
    exact runLoop_tool_echo_turn jp st client cfg ctx fuel history lc log c ts tc t
      htools hchat hhk hpc hfind hex
  · intro ε jp st client cfg input c ts tc t g htools hchat hhk hpc hfind hex
      hog hexp hg
    obtain ⟨n, hn⟩ := fuel_pos (input.maxToolPasses.getD 3)
    obtain ⟨h2, h1, -⟩ := runLoop_tool_echo_turn jp st client cfg input.context n
      (seedHistory cfg g) "" (startLog cfg) c ts tc t htools (hchat _) hhk hpc
      hfind hex
    rcases hl : runLoop jp st client cfg input.context (n + 1)
        (seedHistory cfg g) "" (startLog cfg) with ⟨L, res⟩
    rw [hl] at h2 h1
    have hres : res = .ok (.finalizeWith c) := h2
    subst hres
    have hag : runAgent jp st client cfg input = finalizeRun jp cfg input L c := by
      simp only [runAgent, hg, hn, hl]
    rw [hag, finalizeRun_plain jp cfg input L c hog hexp]
    have h1' : L.calls = [CallEvent.chatCall (hintedArgs cfg (seedHistory cfg g)),
        CallEvent.toolCall t.name tc.args] := by
      simpa using h1
    refine ⟨rfl, ?_, ?_⟩
    · simp only [emitTrace_calls, h1']
      rfl
    · simp only [emitTrace_calls, h1']
      rfl

theorem run_tool_result_equals_input_sentinel_witness :
    ((runAgent jpCalc stNull (clientConst calcDirectiveText)
        { tools := some [echoDirectiveTool], onTrace := true }
        { messages := [⟨.user, "hi", none⟩] }).2 =
      .ok ⟨calcDirectiveText, none⟩)
    ∧ countChatCalls (runAgent jpCalc stNull (clientConst calcDirectiveText)
        { tools := some [echoDirectiveTool], onTrace := true }
        { messages := [⟨.user, "hi", none⟩] }).1.calls = 1
    ∧ countToolCalls (runAgent jpCalc stNull (clientConst calcDirectiveText)
        { tools := some [echoDirectiveTool], onTrace := true }
        { messages := [⟨.user, "hi", none⟩] }).1.calls = 1 :=
  run_tool_result_equals_input_sentinel.2 jpCalc stNull (clientConst calcDirectiveText)
    { tools := some [echoDirectiveTool], onTrace := true }
    { messages := [⟨.user, "hi", none⟩] }
    calcDirectiveText [echoDirectiveTool] ⟨.str "calc", .obj []⟩ echoDirectiveTool
    [⟨.user, "hi", none⟩]
    rfl (fun _ => rfl) rfl rfl rfl rfl rfl rfl rfl

/-! Facts about the name-keyed `Map` used by `mergeTools`. -/

/-- The keys of the association list backing the map. -/
def alKeys (m : List (String × α)) : List String := m.map (fun p => p.1)

theorem mapSet_findKey (m : List (String × α)) (k : String) (v : α) (q : String) :
    (mapSet m k v).find? (fun p => p.1 == q) =
      if q = k then some (k, v) else m.find? (fun p => p.1 == q) := by
  rw [mapSet]
  by_cases hmem : m.any (fun p => p.1 == k) = true
  · rw [if_pos hmem, List.find?_map]
    have hpred : ((fun p : String × α => p.1 == q) ∘
        fun p => if p.1 == k then (k, v) else p) = fun p : String × α => p.1 == q := by
      funext p
      by_cases h : p.1 = k
      · simp [Function.comp, h]
      · simp [Function.comp, h]
    rw [hpred]
    by_cases hq : q = k
    · subst hq
      rw [if_pos rfl]
      obtain ⟨p0, hp0mem, hp0⟩ := List.any_eq_true.mp hmem
      rcases hfind : m.find? (fun p => p.1 == q) with _ | p1
      · exact absurd (List.find?_eq_none.mp hfind p0 hp0mem) (by simp_all)
      · have h1' : p1.1 = q := by simpa using List.find?_some hfind
        rw [hfind]
        simp [h1']
    · rw [if_neg hq]
      rcases hfind : m.find? (fun p => p.1 == q) with _ | p1
      · rw [hfind]
        rfl
      · have h1' : p1.1 = q := by simpa using List.find?_some hfind
        rw [hfind]
        simp [h1', hq]
  · rw [if_neg hmem, List.find?_append]
    by_cases hq : q = k
    · subst hq
      rw [if_pos rfl]
      have hnone : m.find? (fun p => p.1 == q) = none :=
        List.find?_eq_none.mpr (fun p hp hpq => hmem (List.any_eq_true.mpr ⟨p, hp, hpq⟩))
      rw [hnone]
      simp
    · rw [if_neg hq]
      have h2 : List.find? (fun p : String × α => p.1 == q) [(k, v)] = none := by
        simp [Ne.symm hq]
      rw [h2]
      simp

theorem mapSet_replace_keys (m : List (String × α)) (k : String) (v : α) :
    alKeys (m.map (fun p => if p.1 == k then (k, v) else p)) = alKeys m := by
  rw [alKeys, alKeys, List.map_map]
  apply List.map_congr_left
  intro p hp
  by_cases h : p.1 = k <;> simp [Function.comp, h]

theorem any_key_false_not_mem (m : List (String × α)) (k : String)
    (hmem : ¬ m.any (fun p => p.1 == k) = true) : k ∉ alKeys m := by
  intro hk
  obtain ⟨p, hp, hpk⟩ := List.mem_map.mp hk
  exact hmem (List.any_eq_true.mpr ⟨p, hp, by simp [hpk]⟩)

theorem mapSet_keys_mem (m : List (String × α)) (k : String) (v : α) (q : String) :
    q ∈ alKeys (mapSet m k v) ↔ q ∈ alKeys m ∨ q = k := by
  rw [mapSet]
  by_cases hmem : m.any (fun p => p.1 == k) = true
  · rw [if_pos hmem, mapSet_replace_keys]
    constructor
    · exact Or.inl
    · rintro (h | rfl)
      · exact h
      · obtain ⟨p0, hp0mem, hp0⟩ := List.any_eq_true.mp hmem
        have hq : p0.1 = q := by simpa using hp0
        exact hq ▸ List.mem_map_of_mem _ hp0mem
  · rw [if_neg hmem]
    rw [alKeys, List.map_append]
    simp [alKeys]

theorem mapSet_keys_nodup (m : List (String × α)) (k : String) (v : α)
    (h : (alKeys m).Nodup) : (alKeys (mapSet m k v)).Nodup := by
  rw [mapSet]
  by_cases hmem : m.any (fun p => p.1 == k) = true
  · rw [if_pos hmem, mapSet_replace_keys]
    exact h
  · rw [if_neg hmem]
    rw [alKeys, List.map_append, List.nodup_append]
    refine ⟨h, by simp, ?_⟩
    intro x hx hx2
    simp only [List.map_cons, List.map_nil, List.mem_singleton] at hx2
    exact any_key_false_not_mem m k hmem (hx2 ▸ hx)

theorem mapSet_forall (m : List (String × α)) (k : String) (v : α)
    (P : String × α → Prop) (hm : ∀ p ∈ m, P p) (hkv : P (k, v)) :
    ∀ p ∈ mapSet m k v, P p := by
  intro p hp
  rw [mapSet] at hp
  by_cases hmem : m.any (fun p => p.1 == k) = true
  · rw [if_pos hmem] at hp
    obtain ⟨p0, hp0, hfp⟩ := List.mem_map.mp hp
    by_cases h : p0.1 = k
    · rw [← hfp]
      simpa [h] using hkv
    · rw [← hfp]
      simpa [h] using hm p0 hp0
  · rw [if_neg hmem] at hp
    rcases List.mem_append.mp hp with hp | hp
    · exact hm p hp
    · rw [List.mem_singleton.mp hp]
      exact hkv

theorem mergeFold_findKey (l : List (ToolDefinition ε)) :
    ∀ (m : List (String × ToolDefinition ε)) (n : String),
      ((l.foldl (fun m t => mapSet m t.name t) m).find? (fun p => p.1 == n)) =
        match l.reverse.find? (fun t => t.name == n) with
        | some t => some (n, t)
        | none => m.find? (fun p => p.1 == n) := by
  induction l with
  | nil =>
    intro m n
    simp
  | cons t l ih =>
    intro m n
    rw [List.foldl_cons, ih, List.reverse_cons, List.find?_append]
    rcases hrev : l.reverse.find? (fun t => t.name == n) with _ | u
    · rw [hrev, mapSet_findKey]
      by_cases hn : n = t.name
      · simp [hn]
      · have hn' : (t.name == n) = false := by simp [Ne.symm hn]
        simp [hn, hn']
    · rw [hrev]
      simp

theorem mergeFold_keys_mem (l : List (ToolDefinition ε)) :
    ∀ (m : List (String × ToolDefinition ε)) (n : String),
      n ∈ alKeys (l.foldl (fun m t => mapSet m t.name t) m) ↔
        n ∈ alKeys m ∨ n ∈ l.map (fun t => t.name) := by
  induction l with
  | nil =>
    intro m n
    simp
  | cons t l ih =>
    intro m n
    rw [List.foldl_cons, ih]
    rw [mapSet_keys_mem]
    simp only [List.map_cons, List.mem_cons]
    tauto

theorem mergeFold_keys_nodup (l : List (ToolDefinition ε)) :
    ∀ m, (alKeys m).Nodup →
      (alKeys (l.foldl (fun m t => mapSet m t.name t) m)).Nodup := by
  induction l with
  | nil =>
    intro m h
    simpa using h
  | cons t l ih =>
    intro m h
    rw [List.foldl_cons]
    exact ih _ (mapSet_keys_nodup m t.name t h)

theorem mergeFold_snd_name (l : List (ToolDefinition ε)) :
    ∀ m, (∀ p ∈ m, p.2.name = p.1) →
      ∀ p ∈ l.foldl (fun m t => mapSet m t.name t) m, p.2.name = p.1 := by
  induction l with
  | nil =>
    intro m h
    exact h
  | cons t l ih =>
    intro m h
    rw [List.foldl_cons]
    exact ih _ (mapSet_forall m t.name t _ h rfl)

/-- C5: `mergeTools` yields exactly one tool per distinct name, with the
definition from the second list used wherever the two lists share a name
(last write per name wins), and returns `undefined` only when both inputs
are absent. -/
theorem mergeTools_spec {ε : Type} (a b : Option (List (ToolDefinition ε))) :
    (mergeTools a b = none → a = none ∧ b = none)
    ∧ (∀ ts, mergeTools a b = some ts →
        ((ts.map (fun t => t.name)).Nodup
        ∧ (∀ n, n ∈ ts.map (fun t => t.name) ↔
            n ∈ (a.getD [] ++ b.getD []).map (fun t => t.name))
        ∧ (∀ n t', (b.getD []).reverse.find? (fun t => t.name == n) = some t' →
            t' ∈ ts)
        ∧ (∀ n t', (b.getD []).reverse.find? (fun t => t.name == n) = none →
            (a.getD []).reverse.find? (fun t => t.name == n) = some t' →
            t' ∈ ts))) := by
  constructor
  · intro h
    rcases a with _ | la <;> rcases b with _ | lb <;> simp [mergeTools] at h ⊢
  · intro ts hts
    have hts' : ts = (((a.getD [] ++ b.getD []).foldl
        (fun m t => mapSet m t.name t) []).map (fun p => p.2)) := by
      rcases a with _ | la <;> rcases b with _ | lb <;>
        simp only [mergeTools, Option.some.injEq] at hts <;>
        first
          | exact Option.noConfusion hts
          | exact hts.symm
    subst hts'
    have hinv : ∀ p ∈ ((a.getD [] ++ b.getD []).foldl
        (fun m t => mapSet m t.name t) []), p.2.name = p.1 :=
      mergeFold_snd_name _ [] (by intro p hp; cases hp)
    have hnames : (((a.getD [] ++ b.getD []).foldl
          (fun m t => mapSet m t.name t) []).map (fun p => p.2)).map
            (fun t => t.name) =
        alKeys ((a.getD [] ++ b.getD []).foldl (fun m t => mapSet m t.name t) []) := by
      rw [List.map_map]
      exact List.map_congr_left (fun p hp => hinv p hp)
    refine ⟨?_, ?_, ?_, ?_⟩
    · rw [hnames]
      exact mergeFold_keys_nodup _ [] (by simp [alKeys])
    · intro n
      rw [hnames, mergeFold_keys_mem]
      simp [alKeys]
    · intro n t' hb
      have hfind := mergeFold_findKey (a.getD [] ++ b.getD []) [] n
      rw [List.reverse_append, List.find?_append, hb] at hfind
      rw [show (some t').or ((a.getD []).reverse.find? (fun t => t.name == n)) =
        some t' from rfl] at hfind
      exact List.mem_map_of_mem _ (List.mem_of_find?_eq_some hfind)
    · intro n t' hb ha
      have hfind := mergeFold_findKey (a.getD [] ++ b.getD []) [] n
      rw [List.reverse_append, List.find?_append, hb, ha] at hfind
      rw [show (Option.none).or (some t') = some t' from rfl] at hfind
      exact List.mem_map_of_mem _ (List.mem_of_find?_eq_some hfind)

def calcTool2 : ToolDefinition String :=
  { name := "calc", description := some "v2", execute := fun _ _ => .ok (.str "8") }

theorem mergeTools_spec_witness :
    ((([calcTool2, echoTool] : List (ToolDefinition String)).map
        (fun t => t.name)).Nodup)
    ∧ (calcTool2 ∈ ([calcTool2, echoTool] : List (ToolDefinition String))) := by
  have h := (mergeTools_spec (some [calcTool, echoTool]) (some [calcTool2])).2
    [calcTool2, echoTool] rfl
  exact ⟨h.1, h.2.2.1 "calc" calcTool2 rfl⟩

/-- C6: directive extraction attempts a strict parse of the whole text, on
failure a parse of the substring from the first `\x7b` to the last `\x7d`,
and on any further failure yields "no directive"; hence for a response with
no parsable directive neither tool-detection nor handoff-detection fires
and that turn of the loop finalizes without throwing. -/
theorem tryParse_best_effort :
    (∀ (jp : String → Option JValue) (text : String) (v : JValue),
      jp text = some v → tryParseObject jp text = some v)
    ∧ (∀ (jp : String → Option JValue) (text : String),
      jp text = none →
      (jsIndexOf text '{' ≠ -1 ∧ jsLastIndexOf text '}' ≠ -1 ∧
        jsIndexOf text '{' < jsLastIndexOf text '}') →
      tryParseObject jp text =
        jp (jsSlice text (jsIndexOf text '{').toNat
             ((jsLastIndexOf text '}').toNat + 1)))
    ∧ (∀ (jp : String → Option JValue) (text : String),
      jp text = none →
      ¬(jsIndexOf text '{' ≠ -1 ∧ jsLastIndexOf text '}' ≠ -1 ∧
        jsIndexOf text '{' < jsLastIndexOf text '}') →
      tryParseObject jp text = none)
    ∧ (∀ (jp : String → Option JValue) (c : String),
      tryParseObject jp c = none →
      parseToolCall jp c = none ∧ hasKey (tryParseObject jp c) "handoff" = false)
    ∧ (∀ {ε : Type} (jp : String → Option JValue) (st : JValue → String)
        (client : OpenAIClient ε) (cfg : AgentConfig ε) (ctx : ToolContext)
        (fuel : Nat) (history : List Message) (lc : String) (log : RunLog)
        (c : String),
      client.chat (hintedArgs cfg history) = .ok c →
      tryParseObject jp c = none →
      runLoop jp st client cfg ctx (fuel + 1) history lc log =
        (afterChatLog cfg history log c, .ok (.finalizeWith c))) := by
  refine ⟨?_, ?_, ?_, ?_, ?_⟩
  · intro jp text v h
    rw [tryParseObject, h]
  · intro jp text h hbr
    rw [tryParseObject, h]
    simp only [if_pos hbr]
  · intro jp text h hbr
    rw [tryParseObject, h]
    simp only [if_neg hbr]
  · intro jp c h
    constructor
    · rw [parseToolCall, h]
    · rw [h]
      rfl
  · intro ε jp st client cfg ctx fuel history lc log c hchat htp
    exact runLoop_finalize_of_no_directive jp st client cfg ctx fuel history lc
      log c hchat htp

theorem tryParse_best_effort_witness :
    (tryParseObject jpNone "hello world" = none)
    ∧ (runLoop jpNone stNull (clientConst "hello world")
        ({} : AgentConfig String) {} 4 [⟨.user, "hi", none⟩] "" ⟨[], []⟩ =
      (afterChatLog ({} : AgentConfig String) [⟨.user, "hi", none⟩] ⟨[], []⟩
         "hello world",
       .ok (.finalizeWith "hello world"))) := by
  constructor
  · exact tryParse_best_effort.2.2.1 jpNone "hello world" rfl (by decide)
  · exact tryParse_best_effort.2.2.2.2 jpNone stNull (clientConst "hello world")
      ({} : AgentConfig String) {} 3 [⟨.user, "hi", none⟩] "" ⟨[], []⟩
      "hello world" rfl rfl

@[simp] theorem hintedArgs_onTrace (cfg : AgentConfig ε) (b : Bool)
    (history : List Message) :
    hintedArgs {cfg with onTrace := b} history = hintedArgs cfg history := rfl

/-- A single turn's recorded calls and outcome do not depend on the
presence of the trace observer (nor on previously accumulated trace). -/
theorem runTurn_onTrace_congr (jp : String → Option JValue) (st : JValue → String)
    (client : OpenAIClient ε) (cfg : AgentConfig ε) (ctx : ToolContext)
    (history : List Message) (b₁ b₂ : Bool) (log₁ log₂ : RunLog)
    (hc : log₁.calls = log₂.calls) :
    (runTurn jp st client {cfg with onTrace := b₁} ctx history log₁).1.calls =
      (runTurn jp st client {cfg with onTrace := b₂} ctx history log₂).1.calls
    ∧ (runTurn jp st client {cfg with onTrace := b₁} ctx history log₁).2 =
      (runTurn jp st client {cfg with onTrace := b₂} ctx history log₂).2 := by
  rcases hchat : client.chat (hintedArgs cfg history) with e | c
  · rw [runTurn_chat_error jp st client {cfg with onTrace := b₁} ctx history log₁ e hchat,
        runTurn_chat_error jp st client {cfg with onTrace := b₂} ctx history log₂ e hchat]
    refine ⟨?_, rfl⟩
    simp only [chatReqLog_calls, hintedArgs_onTrace, hc]
  · by_cases hhk : hasKey (tryParseObject jp c) "handoff" = true
    · rcases Option.eq_none_or_eq_some cfg.handoff with hand | ⟨hnd, hand⟩
      · obtain ⟨h2a, h1a⟩ := runTurn_handoff_noHandler jp st client
          {cfg with onTrace := b₁} ctx history log₁ c hchat hhk hand
        obtain ⟨h2b, h1b⟩ := runTurn_handoff_noHandler jp st client
          {cfg with onTrace := b₂} ctx history log₂ c hchat hhk hand
        rw [h2a, h2b, h1a, h1b, hc]
        exact ⟨rfl, rfl⟩
      · rcases hr : hnd (handoffDest jp c) history ctx with e | r
        · obtain ⟨h2a, h1a⟩ := runTurn_handoff_error jp st client
            {cfg with onTrace := b₁} ctx history log₁ c hnd e hchat hhk hand hr
          obtain ⟨h2b, h1b⟩ := runTurn_handoff_error jp st client
            {cfg with onTrace := b₂} ctx history log₂ c hnd e hchat hhk hand hr
          rw [h2a, h2b, h1a, h1b, hc]
          exact ⟨rfl, rfl⟩
        · obtain ⟨h2a, h1a⟩ := runTurn_handoff jp st client
            {cfg with onTrace := b₁} ctx history log₁ c hnd r hchat hhk hand hr
          obtain ⟨h2b, h1b⟩ := runTurn_handoff jp st client
            {cfg with onTrace := b₂} ctx history log₂ c hnd r hchat hhk hand hr
          rw [h2a, h2b, h1a, h1b, hc]
          exact ⟨rfl, rfl⟩
    · have hhk' : hasKey (tryParseObject jp c) "handoff" = false := by
        simpa using hhk
      rcases hmet : maybeExecuteTool jp st c cfg.tools ctx with ⟨evs, res⟩
      obtain ⟨h1a, herra, hconta, hfina⟩ := runTurn_tool jp st client
        {cfg with onTrace := b₁} ctx history log₁ c evs res hchat hhk' hmet
      obtain ⟨h1b, herrb, hcontb, hfinb⟩ := runTurn_tool jp st client
        {cfg with onTrace := b₂} ctx history log₂ c evs res hchat hhk' hmet
      refine ⟨by simp only [h1a, h1b, hc, hintedArgs_onTrace], ?_⟩
      rcases res with e | tr
      · rw [herra e rfl, herrb e rfl]
      · by_cases htr : tr = c
        · rw [hfina tr rfl htr, hfinb tr rfl htr]
        · rw [hconta tr rfl htr, hcontb tr rfl htr]

/-- The loop's recorded calls and exit do not depend on the observer. -/
theorem runLoop_onTrace_congr (jp : String → Option JValue) (st : JValue → String)
    (client : OpenAIClient ε) (cfg : AgentConfig ε) (ctx : ToolContext)
    (b₁ b₂ : Bool) :
    ∀ (fuel : Nat) (history : List Message) (lc : String) (log₁ log₂ : RunLog),
      log₁.calls = log₂.calls →
      (runLoop jp st client {cfg with onTrace := b₁} ctx fuel history lc log₁).1.calls =
        (runLoop jp st client {cfg with onTrace := b₂} ctx fuel history lc log₂).1.calls
      ∧ (runLoop jp st client {cfg with onTrace := b₁} ctx fuel history lc log₁).2 =
        (runLoop jp st client {cfg with onTrace := b₂} ctx fuel history lc log₂).2 := by
  intro fuel
  induction fuel with
  | zero =>
    intro history lc log₁ log₂ hc
    exact ⟨hc, rfl⟩
  | succ n ih =>
    intro history lc log₁ log₂ hc
    obtain ⟨hcalls, hout⟩ := runTurn_onTrace_congr jp st client cfg ctx history
      b₁ b₂ log₁ log₂ hc
    rcases ht1 : runTurn jp st client {cfg with onTrace := b₁} ctx history log₁
      with ⟨L₁, o₁⟩
    rcases ht2 : runTurn jp st client {cfg with onTrace := b₂} ctx history log₂
      with ⟨L₂, o₂⟩
    rw [ht1, ht2] at hcalls hout
    have hcalls' : L₁.calls = L₂.calls := hcalls
    have hout' : o₁ = o₂ := hout
    subst hout'
    cases o₁ with
    | errored e =>
      simp only [runLoop, ht1, ht2]
      exact ⟨hcalls', trivial⟩
    | handoffDone r =>
      simp only [runLoop, ht1, ht2]
      exact ⟨hcalls', trivial⟩
    | finalized c =>
      simp only [runLoop, ht1, ht2]
      exact ⟨hcalls', trivial⟩
    | continueWith h2 lc2 =>
      simp only [runLoop, ht1, ht2]
      exact ih h2 lc2 L₁ L₂ hcalls'

@[simp] theorem upd_onTrace_inputGuard (cfg : AgentConfig ε) (b : Bool) :
    ({cfg with onTrace := b} : AgentConfig ε).inputGuard = cfg.inputGuard := rfl

@[simp] theorem upd_onTrace_outputGuard (cfg : AgentConfig ε) (b : Bool) :
    ({cfg with onTrace := b} : AgentConfig ε).outputGuard = cfg.outputGuard := rfl

@[simp] theorem seedHistory_onTrace (cfg : AgentConfig ε) (b : Bool)
    (g : List Message) :
    seedHistory {cfg with onTrace := b} g = seedHistory cfg g := rfl

theorem runAgent_guard_error (jp : String → Option JValue) (st : JValue → String)
    (client : OpenAIClient ε) (cfg : AgentConfig ε) (input : RunInput ε) (e : ε)
    (hg : applyGuard cfg.inputGuard input.messages = .error e) :
    runAgent jp st client cfg input = (⟨[], []⟩, .error e) := by
  simp only [runAgent, hg]

theorem runAgent_guard_ok (jp : String → Option JValue) (st : JValue → String)
    (client : OpenAIClient ε) (cfg : AgentConfig ε) (input : RunInput ε)
    (g : List Message)
    (hg : applyGuard cfg.inputGuard input.messages = .ok g) :
    runAgent jp st client cfg input =
      (match runLoop jp st client cfg input.context
          ((max 1 ((input.maxToolPasses.getD 3) + 1)).toNat)
          (seedHistory cfg g) "" (startLog cfg) with
       | (log, .error e) => (log, .error e)
       | (log, .ok (.handoffResult r)) => (log, .ok r)
       | (log, .ok (.finalizeWith lastContent)) =>
           finalizeRun jp cfg input log lastContent) := by
  simp only [runAgent, hg]

theorem finalizeRun_onTrace_congr (jp : String → Option JValue)
    (cfg : AgentConfig ε) (input : RunInput ε) (b₁ b₂ : Bool)
    (log₁ log₂ : RunLog) (c : String) (hc : log₁.calls = log₂.calls) :
    (finalizeRun jp {cfg with onTrace := b₁} input log₁ c).2 =
      (finalizeRun jp {cfg with onTrace := b₂} input log₂ c).2
    ∧ (finalizeRun jp {cfg with onTrace := b₁} input log₁ c).1.calls =
      (finalizeRun jp {cfg with onTrace := b₂} input log₂ c).1.calls := by
  rw [finalizeRun, finalizeRun]
  simp only [upd_onTrace_outputGuard]
  rcases hog : applyGuard cfg.outputGuard c with e | content
  · simp only [hog]
    exact ⟨trivial, hc⟩
  · simp only [hog]
    rcases hexp : input.expect with _ | sch
    · simp only [emitTrace_calls]
      exact ⟨trivial, hc⟩
    · rcases hp : sch.parse (tryParseObject jp content) with e | v
      · simp only [hp]
        exact ⟨trivial, hc⟩
      · simp only [hp, emitTrace_calls]
        exact ⟨trivial, hc⟩

/-- C9: running with a trace observer present produces the same
`{content, structured}` result and the same sequence of provider and tool
invocations as running the identical configuration with the observer
absent: trace emission never influences the state machine's decisions. -/
theorem run_onTrace_no_influence (jp : String → Option JValue)
    (st : JValue → String) (client : OpenAIClient ε) (cfg : AgentConfig ε)
    (input : RunInput ε) (b₁ b₂ : Bool) :
    (runAgent jp st client {cfg with onTrace := b₁} input).2 =
      (runAgent jp st client {cfg with onTrace := b₂} input).2
    ∧ (runAgent jp st client {cfg with onTrace := b₁} input).1.calls =
      (runAgent jp st client {cfg with onTrace := b₂} input).1.calls := by
  rcases hg : applyGuard cfg.inputGuard input.messages with e | g
  · rw [runAgent_guard_error jp st client {cfg with onTrace := b₁} input e hg,
        runAgent_guard_error jp st client {cfg with onTrace := b₂} input e hg]
    exact ⟨rfl, rfl⟩
  · rw [runAgent_guard_ok jp st client {cfg with onTrace := b₁} input g hg,
        runAgent_guard_ok jp st client {cfg with onTrace := b₂} input g hg]
    simp only [seedHistory_onTrace]
    obtain ⟨hcalls, hexit⟩ := runLoop_onTrace_congr jp st client cfg input.context
      b₁ b₂ ((max 1 ((input.maxToolPasses.getD 3) + 1)).toNat)
      (seedHistory cfg g) "" (startLog {cfg with onTrace := b₁})
      (startLog {cfg with onTrace := b₂}) (by simp)
    rcases hl1 : runLoop jp st client {cfg with onTrace := b₁} input.context
        ((max 1 ((input.maxToolPasses.getD 3) + 1)).toNat)
        (seedHistory cfg g) "" (startLog {cfg with onTrace := b₁}) with ⟨L₁, r₁⟩
    rcases hl2 : runLoop jp st client {cfg with onTrace := b₂} input.context
        ((max 1 ((input.maxToolPasses.getD 3) + 1)).toNat)
        (seedHistory cfg g) "" (startLog {cfg with onTrace := b₂}) with ⟨L₂, r₂⟩
    rw [hl1, hl2] at hcalls hexit
    have hcalls' : L₁.calls = L₂.calls := hcalls
    have hexit' : r₁ = r₂ := hexit
    subst hexit'
    rcases r₁ with e | lexit
    · exact ⟨rfl, hcalls'⟩
    · rcases lexit with c | r
      · exact finalizeRun_onTrace_congr jp cfg input b₁ b₂ L₁ L₂ c hcalls'
      · exact ⟨rfl, hcalls'⟩
